import Mathlib

/-!
Shallow embedding of the missing-value analysis pipeline of
`src/EDA/missing_values.py` (and its duplicate `src/eda/missing_values.py`):
`analyze_group_differences` and the three steps of `analyze_missing_patterns`
(missingness correlation matrix, pairwise chi-square table, survival-outcome
table).

Modelling conventions:
* A dataframe cell is `Option ℚ` (`none` = NaN/missing).  Group labels,
  event indicators and event times are all modelled as rationals.
* The SciPy statistic/p-value computations (`chi2_contingency`'s p-value and
  statistic, `mannwhitneyu`'s p-value) are transcendental float computations;
  they are taken as function parameters (`sfun`, `pfun`, `mfun`).  Their
  documented *error* behaviour (raising on empty tables / zero expected
  frequencies / empty samples), which the analysis code can hit, is modelled
  concretely, as is `chi2_contingency`'s exact `(0.0, 1.0)` result for tables
  with zero degrees of freedom.
* Exceptions (pandas `KeyError`, SciPy `ValueError`) are modelled by `Except`.

The Batteries rational-arithmetic primitives are restored to their default
reducibility so that concrete runs of the embedded analyzers can be settled
by `decide`.
-/

attribute [local semireducible] Rat.ofScientific Rat.mul Rat.add Rat.sub Rat.inv

/-- Error kinds corresponding to the exceptions the Python code can raise:
`KeyError` from a pandas column lookup, SciPy's "No data; observed has size 0",
SciPy's "zero element in the table of expected frequencies", and SciPy's
"`x` and `y` must be of nonzero size" from `mannwhitneyu`. -/
inductive Err where
  | keyError : Err
  | noData : Err
  | zeroExpected : Err
  | emptySample : Err
deriving DecidableEq, Repr

instance exceptErrDecEq {α : Type} [DecidableEq α] : DecidableEq (Except Err α) :=
  fun a b =>
  match a, b with
  | .ok x, .ok y =>
    if h : x = y then .isTrue (by rw [h]) else .isFalse (by simp [h])
  | .error e, .error e' =>
    if h : e = e' then .isTrue (by rw [h]) else .isFalse (by simp [h])
  | .ok _, .error _ => .isFalse (by simp)
  | .error _, .ok _ => .isFalse (by simp)

/-- A dataframe cell: `none` models NaN/missing. -/
abbrev Cell := Option ℚ

/-- An in-memory dataframe: ordered named columns of cells. -/
structure DataFrame where
  cols : List (String × List Cell)
deriving DecidableEq, Repr

/-- The column names, in order. -/
def DataFrame.names (df : DataFrame) : List String :=
  df.cols.map (·.1)

/-- First-match association lookup (pandas column access on unique labels). -/
def alookup {α : Type} : List (String × α) → String → Option α
  | [], _ => none
  | (k, v) :: t, q => if k = q then some v else alookup t q

/-- `df[name]`: `KeyError` when the column is absent. -/
def getCol (df : DataFrame) (name : String) : Except Err (List Cell) :=
  match alookup df.cols name with
  | some v => .ok v
  | none => .error .keyError

/-- `series.isnull()` as a boolean list. -/
def isnullB (xs : List Cell) : List Bool :=
  xs.map Option.isNone

/-- `df.isnull().astype(int)`: the missingness indicator column as 0/1. -/
def indicatorQ (xs : List Cell) : List ℚ :=
  xs.map (fun c => if c.isNone then (1 : ℚ) else 0)

/-- Re-encode a boolean mask as a (never-missing) cell column so that it can
feed `crosstab` (pandas treats the mask as a 0/1-valued categorical). -/
def maskCell (m : List Bool) : List Cell :=
  m.map (fun b => some (if b then (1 : ℚ) else 0))

/-- Distinct values, ascending (pandas sorts category levels). -/
def distinctSorted (l : List ℚ) : List ℚ :=
  List.insertionSort (· ≤ ·) l.dedup

/-- Row-aligned pairs where both sides are observed (pandas `crosstab` drops
rows in which either variable is NaN). -/
def validPairs (a b : List Cell) : List (ℚ × ℚ) :=
  (a.zip b).filterMap fun p =>
    match p with
    | (some u, some v) => some (u, v)
    | _ => none

/-- The count of one cell of a cross-tabulation. -/
def ctabCount (pairs : List (ℚ × ℚ)) (av bv : ℚ) : ℕ :=
  (pairs.filter (fun p => p.1 = av ∧ p.2 = bv)).length

/-- `pd.crosstab(a, b)`: cross-tabulated counts over the observed category
levels of each variable, levels sorted ascending. -/
def crosstab (a b : List Cell) : List (List ℕ) :=
  (distinctSorted ((validPairs a b).map (·.1))).map fun av =>
    (distinctSorted ((validPairs a b).map (·.2))).map fun bv =>
      ctabCount (validPairs a b) av bv

/-- Whether some column of the table sums to zero (a zero column marginal). -/
def colHasZero (t : List (List ℕ)) : Bool :=
  match t with
  | [] => false
  | r :: _ => (List.range r.length).any fun j => (t.map fun row => row.getD j 0).sum = 0

/-- `scipy.stats.chi2_contingency(t)` restricted to what the analyzers use
(the `(statistic, p_value)` prefix of its result):
* raises on a size-0 table ("No data");
* raises when the expected-frequency table has a zero element, which for a
  nonnegative table happens exactly when a row or column marginal is zero;
* for zero degrees of freedom returns exactly `(0.0, 1.0)`;
* otherwise the float statistic and p-value are abstracted as `sfun`/`pfun`. -/
def chi2_contingency (sfun pfun : List (List ℕ) → ℚ) (t : List (List ℕ)) :
    Except Err (ℚ × ℚ) :=
  if t = [] ∨ (t.headD []) = [] then .error .noData
  else if (t.any fun r => r.sum = 0) ∨ colHasZero t then .error .zeroExpected
  else if (t.length - 1) * ((t.headD []).length - 1) = 0 then .ok (0, 1)
  else .ok (sfun t, pfun t)

/-- `scipy.stats.mannwhitneyu(x, y).pvalue`: raises when either sample is
empty; the float p-value itself is abstracted as `mfun`. -/
def mannwhitneyu (mfun : List ℚ → List ℚ → ℚ) (x y : List ℚ) : Except Err ℚ :=
  if x = [] ∨ y = [] then .error .emptySample
  else .ok (mfun x y)

/-!
## Group-difference analyzer (`analyze_group_differences`, lines 12-51)
-/

/-- `df[feature].isnull().groupby(df[group]).mean() * 100`: per observed group
value (rows with a missing group label are dropped by `groupby`, group keys
sorted ascending), the percentage of rows whose feature value is missing. -/
def percentagesByGroup (g feat : List Cell) : List (ℚ × ℚ) :=
  (distinctSorted (g.filterMap id)).map fun v =>
    let rows := ((g.zip feat).filter (fun p => p.1 = some v)).map (·.2)
    (v, 100 * ((rows.filter (·.isNone)).length : ℚ) / (rows.length : ℚ))

/-- `Series.max` on a nonempty series (the analyzer only reaches it when the
group column has at least one observed value; default is irrelevant junk). -/
def maxQ : List ℚ → ℚ
  | [] => 0
  | x :: xs => xs.foldl max x

def minQ : List ℚ → ℚ
  | [] => 0
  | x :: xs => xs.foldl min x

/-- The ε-guard constant `1e-10` of the significance score. -/
def epsQ : ℚ := 1 / 10 ^ 10

/-- One full-precision result row of `analyze_group_differences` (the entry
the loop stores in the `results` dict for one feature). -/
structure GDRow where
  feature : String
  pcts : List (ℚ × ℚ)
  p_value : ℚ
  chi2_statistic : ℚ
  max_group_difference : ℚ
  significance_score : ℚ
deriving DecidableEq, Repr

/-- The loop body of `analyze_group_differences` for one feature: percentages
by group, chi-square test on the (group × missingness) contingency, max group
difference, composite significance score. -/
def featureRow (sfun pfun : List (List ℕ) → ℚ) (g feat : List Cell)
    (name : String) : Except Err GDRow :=
  Except.map
    (fun cp =>
      ⟨name, percentagesByGroup g feat, cp.2, cp.1,
        maxQ ((percentagesByGroup g feat).map (·.2)) -
          minQ ((percentagesByGroup g feat).map (·.2)),
        (maxQ ((percentagesByGroup g feat).map (·.2)) -
          minQ ((percentagesByGroup g feat).map (·.2))) / (cp.2 + epsQ)⟩)
    (chi2_contingency sfun pfun (crosstab g (maskCell (isnullB feat))))

/-- The per-feature loop: `df[feature]` then `df[group_variable]` are looked
up inside each iteration (so their `KeyError`s occur in that order). -/
def gdRows (sfun pfun : List (List ℕ) → ℚ) (df : DataFrame) (group : String) :
    List String → Except Err (List GDRow)
  | [] => .ok []
  | f :: fs =>
    Except.bind (getCol df f) fun feat =>
      Except.bind (getCol df group) fun g =>
        Except.bind (featureRow sfun pfun g feat f) fun row =>
          Except.map (fun rest => row :: rest) (gdRows sfun pfun df group fs)

/-- `results[feature] = ...` into a Python dict: a repeated feature name
overwrites in place, so the row set has one row per distinct feature, in
first-occurrence order (repeated features recompute the identical row). -/
def dedupRows : List GDRow → List GDRow
  | [] => []
  | r :: rs => r :: (dedupRows rs).filter (fun r' => r'.feature ≠ r.feature)

/-- Round-half-to-even at integer precision (numpy/pandas rounding). -/
def rhe (x : ℚ) : ℤ :=
  if x - ⌊x⌋ < 1 / 2 then ⌊x⌋
  else if 1 / 2 < x - ⌊x⌋ then ⌊x⌋ + 1
  else if 2 ∣ ⌊x⌋ then ⌊x⌋ else ⌊x⌋ + 1

/-- `round(3)`: banker's rounding at three decimal places. -/
def round3 (q : ℚ) : ℚ := (rhe (q * 1000) : ℚ) / 1000

/-- `DataFrame.round(3)` applied to one result row: every stored statistic
(including the per-group percentages) is rounded; labels are untouched. -/
def roundRow3 (r : GDRow) : GDRow :=
  ⟨r.feature, r.pcts.map (fun p => (p.1, round3 p.2)), round3 r.p_value,
    round3 r.chi2_statistic, round3 r.max_group_difference,
    round3 r.significance_score⟩

/-- `sort_values(key)` on a small result table.  pandas' default
`kind='quicksort'` delegates to numpy, whose introsort runs a stable insertion
sort on ranges of at most 16 elements; the model is therefore exact (including
tie order) for tables of at most 16 rows, while for larger tables only the
ordering by key (not the tie order) is guaranteed by the library. -/
def sortRowsBy (key : GDRow → ℚ) (rows : List GDRow) : List GDRow :=
  List.insertionSort (fun a b => key a ≤ key b) rows

/-- `sort_values(key, ascending=False)`: pandas reverses the values, argsorts
ascending, and reverses the result. -/
def sortRowsByDesc (key : GDRow → ℚ) (rows : List GDRow) : List GDRow :=
  (List.insertionSort (fun a b => key a ≤ key b) rows.reverse).reverse

/-- `analyze_group_differences(df, group_variable, features_list)`.

Output (in place of the two CSV side effects): the full-precision row set
(the `results` dict, in insertion order), the view of the rounded table sorted
ascending by `p_value`, and the view sorted descending by
`significance_score`.  The two persisted views are built from
`DataFrame.from_dict(results, orient='index').round(3)` — the *rounded*
table.  An empty row set makes `sort_values('p_value')` raise a `KeyError`
(the empty frame has no columns). -/
def analyze_group_differences (sfun pfun : List (List ℕ) → ℚ) (df : DataFrame)
    (group : String) (features : List String) :
    Except Err (List GDRow × List GDRow × List GDRow) :=
  Except.bind (gdRows sfun pfun df group features) fun rows =>
    if dedupRows rows = [] then .error .keyError
    else .ok (dedupRows rows,
      sortRowsBy (·.p_value) ((dedupRows rows).map roundRow3),
      sortRowsByDesc (·.significance_score) ((dedupRows rows).map roundRow3))

/-!
## Missing-pattern analyzer (`analyze_missing_patterns`, lines 113-171)

Modelled as its three emitted tables (one per CSV): the missingness
correlation matrix, the pairwise chi-square table, and the survival table.
-/

/-- Core of pandas `nancorr` on a row-aligned pair list with no NaNs: the
Pearson correlation `sxy / sqrt(sxx * syy)` represented exactly as the pair
`(sxy, sxx * syy)` of centred sums (the shared `1/(n-1)` factors of the
covariances cancel in the ratio).  `none` models the NaN result when either
variance vanishes (zero divisor) or the list is empty. -/
def meanL (l : List ℚ) : ℚ := l.sum / (l.length : ℚ)

def sxxL (l : List (ℚ × ℚ)) : ℚ :=
  (l.map fun p => (p.1 - meanL (l.map (·.1))) ^ 2).sum

def syyL (l : List (ℚ × ℚ)) : ℚ :=
  (l.map fun p => (p.2 - meanL (l.map (·.2))) ^ 2).sum

def sxyL (l : List (ℚ × ℚ)) : ℚ :=
  (l.map fun p => (p.1 - meanL (l.map (·.1))) * (p.2 - meanL (l.map (·.2)))).sum

def corrZ (l : List (ℚ × ℚ)) : Option (ℚ × ℚ) :=
  if l.length = 0 then none
  else if sxxL l = 0 ∨ syyL l = 0 then none
  else some (sxyL l, sxxL l * syyL l)

/-- Pearson correlation of two equal-length numeric columns, in the exact
`(numerator, squared-divisor)` representation of `corrZ`. -/
def corrPair (xs ys : List ℚ) : Option (ℚ × ℚ) :=
  corrZ (xs.zip ys)

/-- The real value denoted by a `corrZ` representation:
`sxy / sqrt(sxx * syy)` (used only in theorem statements). -/
noncomputable def corrVal : Option (ℚ × ℚ) → Option ℝ :=
  Option.map fun p => (p.1 : ℝ) / Real.sqrt (p.2 : ℝ)

/-- `missing_indicators.corr()` (step 2): the full pairwise Pearson
correlation matrix over the 0/1 missingness indicators of *all* columns,
as a labelled matrix of exact `corrZ` entries. -/
def missingCorr (df : DataFrame) : List (String × List (String × Option (ℚ × ℚ))) :=
  df.cols.map fun c1 =>
    (c1.1, df.cols.map fun c2 => (c2.1, corrPair (indicatorQ c1.2) (indicatorQ c2.2)))

/-- Matrix entry lookup by row and column label. -/
def mget (m : List (String × List (String × Option (ℚ × ℚ)))) (r c : String) :
    Option (Option (ℚ × ℚ)) :=
  (alookup m r).bind fun row => alookup row c

/-- Python string comparison `col1 < col2` is lexicographic by Unicode code
point — exactly the lexicographic order of the underlying character lists.
(Lean's `String.instLT` is definitionally the same order; this spelling
routes decidability through the character lists.) -/
def strLt (a b : String) : Prop := a.data < b.data

instance strLtDec : DecidableRel strLt :=
  fun a b => inferInstanceAs (Decidable (a.data < b.data))

/-- One row of the pairwise chi-square table (step 3). -/
structure PairRow where
  variable1 : String
  variable2 : String
  chi2_statistic : ℚ
  p_value : ℚ
deriving DecidableEq, Repr

/-- Inner loop of step 3: for a fixed `col1`, all `col2` with
`col1 < col2` (Python string comparison = lexicographic). -/
def pairwiseInner (sfun pfun : List (List ℕ) → ℚ) (c1 : String) (xs : List Cell) :
    List (String × List Cell) → Except Err (List PairRow)
  | [] => .ok []
  | (c2, ys) :: rest =>
    if strLt c1 c2 then
      Except.bind (chi2_contingency sfun pfun
          (crosstab (maskCell (isnullB xs)) (maskCell (isnullB ys)))) fun sp =>
        Except.map (fun r => ⟨c1, c2, sp.1, sp.2⟩ :: r)
          (pairwiseInner sfun pfun c1 xs rest)
    else pairwiseInner sfun pfun c1 xs rest

/-- Outer loop of step 3 over `col1`. -/
def pairwiseOuter (sfun pfun : List (List ℕ) → ℚ) :
    List (String × List Cell) → List (String × List Cell) → Except Err (List PairRow)
  | [], _ => .ok []
  | (c1, xs) :: rest, all =>
    Except.bind (pairwiseInner sfun pfun c1 xs all) fun rows =>
      Except.map (fun more => rows ++ more) (pairwiseOuter sfun pfun rest all)

/-- Step 3 of `analyze_missing_patterns`: chi-square tests between the
missingness indicators of every pair of distinct columns, each unordered pair
taken once with `variable1 < variable2`. -/
def pairwiseChiSquare (sfun pfun : List (List ℕ) → ℚ) (df : DataFrame) :
    Except Err (List PairRow) :=
  pairwiseOuter sfun pfun df.cols df.cols

/-- One row of the survival table (step 4). -/
structure SurvRow where
  var : String
  time_diff_pvalue : ℚ
  event_diff_pvalue : ℚ
  missing_event_rate : Option ℚ
  present_event_rate : Option ℚ
deriving DecidableEq, Repr

/-- `Series.mean()`: NaN values are skipped; the mean of an empty (or
all-NaN) selection is NaN (`none`). -/
def meanOpt (l : List Cell) : Option ℚ :=
  let v := l.filterMap id
  if v.length = 0 then none else some (v.sum / (v.length : ℚ))

/-- The cells of `col` at the rows where the mask equals `b`
(`df[missing_mask][col]` / `df[~missing_mask][col]`). -/
def rowsAt (mask : List Bool) (col : List Cell) (b : Bool) : List Cell :=
  (mask.zip col).filterMap fun p => if p.1 = b then some p.2 else none

/-- The observed values of `col` at the rows where the mask equals `b`
(`df[mask][col].dropna()`). -/
def dropnaAt (mask : List Bool) (col : List Cell) (b : Bool) : List ℚ :=
  (rowsAt mask col b).filterMap id

/-- Loop body of step 4 for one column: skip it when it has no missing value;
otherwise Mann-Whitney U on `efs_time` between the missing/present subsets
(`df[missing_mask]['efs_time']` raises `KeyError` if `efs_time` is absent),
then a chi-square test on `crosstab(missing_mask, df['efs'])`, then the two
event rates.  The outcome column names `efs_time`/`efs` are hardcoded. -/
def survCol (mfun : List ℚ → List ℚ → ℚ) (sfun pfun : List (List ℕ) → ℚ)
    (df : DataFrame) (c : String × List Cell) : Except Err (Option SurvRow) :=
  if (isnullB c.2).any id then
    Except.bind (getCol df "efs_time") fun et =>
      Except.bind (mannwhitneyu mfun (dropnaAt (isnullB c.2) et true)
          (dropnaAt (isnullB c.2) et false)) fun p1 =>
        Except.bind (getCol df "efs") fun efs =>
          Except.map
            (fun sp =>
              some ⟨c.1, p1, sp.2, meanOpt (rowsAt (isnullB c.2) efs true),
                meanOpt (rowsAt (isnullB c.2) efs false)⟩)
            (chi2_contingency sfun pfun (crosstab (maskCell (isnullB c.2)) efs))
  else .ok none

/-- Step 4's loop over all columns of the dataframe. -/
def survRows (mfun : List ℚ → List ℚ → ℚ) (sfun pfun : List (List ℕ) → ℚ)
    (df : DataFrame) : List (String × List Cell) → Except Err (List SurvRow)
  | [] => .ok []
  | c :: cs =>
    Except.bind (survCol mfun sfun pfun df c) fun o =>
      Except.map (fun rest => o.elim rest (· :: rest)) (survRows mfun sfun pfun df cs)

/-- Step 4 of `analyze_missing_patterns`: the missingness-survival table. -/
def survivalAnalysis (mfun : List ℚ → List ℚ → ℚ) (sfun pfun : List (List ℕ) → ℚ)
    (df : DataFrame) : Except Err (List SurvRow) :=
  survRows mfun sfun pfun df df.cols

/-!
## Concrete instantiations used by witnesses and counterexamples

`exChiP`/`exMwu` are plausible stand-ins for the abstract SciPy p-value
functions (they take values in `[0,1]`); `exStat` stands in for the
chi-square statistic.
-/

def exStat : List (List ℕ) → ℚ := fun _ => 7

def exChiP : List (List ℕ) → ℚ :=
  fun t => if t = [[1, 1], [2, 0]] then 77 / 625 else 1231 / 10000

def exMwu : List ℚ → List ℚ → ℚ := fun _ _ => 1 / 2

/-- Two groups of two rows; `f1` is missing once in group 1, `f2` is missing
in both group-1 rows and once in group 2, so the two features have distinct
contingency tables and `exChiP` gives them p-values `0.1232` and `0.1231`,
which agree after rounding to 3 decimals. -/
def dfTie : DataFrame :=
  ⟨[("g", [some 1, some 1, some 2, some 2]),
    ("f1", [none, some 1, some 1, some 1]),
    ("f2", [none, none, some 1, none])]⟩

/-- Outcome columns intact, and the event column `efs` itself has a missing
value (no other column does). -/
def dfEfsMiss : DataFrame :=
  ⟨[("efs", [some 1, none, some 0]),
    ("efs_time", [some 2, some 3, some 4]),
    ("x", [some 1, some 1, some 1])]⟩

/-- A column that is missing in every row, with intact outcome columns: its
"present" subset is empty. -/
def dfAllMiss : DataFrame :=
  ⟨[("x", [none, none]),
    ("efs", [some 1, some 0]),
    ("efs_time", [some 5, some 3])]⟩

/-- A dataset whose caller would designate `event`/`time` as the outcome
pair; it has no column named `efs_time`, and `x` has a missing value. -/
def dfRenamed : DataFrame :=
  ⟨[("x", [some 1, none]),
    ("event", [some 1, some 0]),
    ("time", [some 2, some 3])]⟩

/-- Two distinct columns, zero rows. -/
def dfNoRows : DataFrame := ⟨[("a", []), ("b", [])]⟩

/-- Three columns over three rows: `a` has mixed missingness, `b` none,
`c` is entirely missing. -/
def dfMixed : DataFrame :=
  ⟨[("a", [none, some 1, some 2]),
    ("b", [some 1, some 1, some 1]),
    ("c", [none, none, none])]⟩

/-- One feature `x`, missing in group 1 and present in group 2. -/
def dfW : DataFrame := ⟨[("g", [some 1, some 2]), ("x", [none, some 1])]⟩

/-- The full-precision result row `analyze_group_differences` computes for
feature `x` of `dfW` (checked by evaluation in the witnesses below). -/
def rowW : GDRow :=
  ⟨"x", [(1, 100), (2, 0)], 1231 / 10000, 7, 100, 1000000000000 / 1231000001⟩

/-- `rowW` after `round(3)`. -/
def rowWr : GDRow :=
  ⟨"x", [(1, 100), (2, 0)], 123 / 1000, 7, 100, 203087 / 250⟩

/-- The full output triple of `analyze_group_differences` on `dfW` (checked
by evaluation in the witnesses below). -/
def outW : List GDRow × List GDRow × List GDRow :=
  ([rowW], [rowWr], [rowWr])

/-- The pairwise chi-square table of `dfMixed` (every pair is degenerate with
zero degrees of freedom, hence the exact `(0, 1)` results). -/
def outPW : List PairRow :=
  [⟨"a", "b", 0, 1⟩, ⟨"a", "c", 0, 1⟩, ⟨"b", "c", 0, 1⟩]

/-- The survival table of `dfEfsMiss` under `exMwu`/`exChiP`: one row, for
the event column `efs` itself (the only column with a missing value). -/
def outSV : List SurvRow :=
  [⟨"efs", 1 / 2, 1, none, some (1 / 2)⟩]

/-- The call raised some exception (no result tables were produced). -/
def isError {α : Type} (e : Except Err α) : Prop :=
  ∃ err, e = .error err

/-- First pair with the given key (used to reason about `alookup` over
label-keyed `map`s). -/
def afind {α : Type} : List (String × α) → String → Option (String × α)
  | [], _ => none
  | p :: t, q => if p.1 = q then some p else afind t q

/-!
## Helper lemmas
-/

theorem mem_distinctSorted {a : ℚ} {l : List ℚ} :
    a ∈ distinctSorted l ↔ a ∈ l := by
  unfold distinctSorted
  rw [(List.perm_insertionSort _ l.dedup).mem_iff]
  exact List.mem_dedup

theorem distinctSorted_ne_nil {l : List ℚ} (h : l ≠ []) :
    distinctSorted l ≠ [] := by
  intro hd
  rcases List.exists_mem_of_ne_nil l h with ⟨a, ha⟩
  have : a ∈ distinctSorted l := mem_distinctSorted.mpr ha
  simp [hd] at this

theorem floor_le_rhe (x : ℚ) : ⌊x⌋ ≤ rhe x := by
  unfold rhe
  repeat' split
  all_goals omega

theorem rhe_le_ceil (x : ℚ) : rhe x ≤ ⌈x⌉ := by
  unfold rhe
  by_cases h1 : x - ⌊x⌋ < 1 / 2
  · rw [if_pos h1]
    exact Int.floor_le_ceil x
  · rw [if_neg h1]
    have hlt : (⌊x⌋ : ℚ) < x := by
      rcases eq_or_lt_of_le (Int.floor_le x) with he | hl
      · exfalso
        apply h1
        rw [← he]
        norm_num
      · exact hl
    have hceil : ⌊x⌋ + 1 ≤ ⌈x⌉ := by
      by_contra hc
      push_neg at hc
      have h2 : ⌈x⌉ ≤ ⌊x⌋ := by omega
      have h3 : (⌈x⌉ : ℚ) ≤ (⌊x⌋ : ℚ) := by exact_mod_cast h2
      have h4 := Int.le_ceil x
      linarith
    split
    · omega
    · split <;> omega

theorem round3_nonneg {q : ℚ} (h : 0 ≤ q) : 0 ≤ round3 q := by
  unfold round3
  have h1 : (0 : ℤ) ≤ ⌊q * 1000⌋ := Int.floor_nonneg.mpr (by positivity)
  have h2 : (0 : ℤ) ≤ rhe (q * 1000) := le_trans h1 (floor_le_rhe _)
  positivity

theorem round3_le_int {q : ℚ} {k : ℤ} (h : q ≤ (k : ℚ)) : round3 q ≤ (k : ℚ) := by
  unfold round3
  have h1 : ⌈q * 1000⌉ ≤ k * 1000 := by
    apply Int.ceil_le.mpr
    push_cast
    linarith
  have h2 : rhe (q * 1000) ≤ k * 1000 := le_trans (rhe_le_ceil _) h1
  have h3 : (rhe (q * 1000) : ℚ) ≤ ((k * 1000 : ℤ) : ℚ) := by exact_mod_cast h2
  push_cast at h3
  linarith

theorem ctabCount_pos {pairs : List (ℚ × ℚ)} {p₀ : ℚ × ℚ} (h : p₀ ∈ pairs) :
    0 < ctabCount pairs p₀.1 p₀.2 := by
  unfold ctabCount
  apply List.length_pos.mpr
  apply List.ne_nil_of_mem (a := p₀)
  apply List.mem_filter.mpr
  exact ⟨h, by simp⟩

theorem crosstab_row_sum_pos {a b : List Cell} {r : List ℕ}
    (hr : r ∈ crosstab a b) : 0 < r.sum := by
  unfold crosstab at hr
  rcases List.mem_map.mp hr with ⟨av, hav, rfl⟩
  rcases List.mem_map.mp (mem_distinctSorted.mp hav) with ⟨p₀, hp₀, rfl⟩
  have hbv : p₀.2 ∈ distinctSorted ((validPairs a b).map (·.2)) :=
    mem_distinctSorted.mpr (List.mem_map_of_mem _ hp₀)
  have hmem : ctabCount (validPairs a b) p₀.1 p₀.2 ∈
      (distinctSorted ((validPairs a b).map (·.2))).map
        (fun bv => ctabCount (validPairs a b) p₀.1 bv) :=
    List.mem_map_of_mem _ hbv
  exact lt_of_lt_of_le (ctabCount_pos hp₀)
    (List.single_le_sum (fun x _ => Nat.zero_le x) _ hmem)

theorem crosstab_col_sum_pos {a b : List Cell} {j : ℕ}
    (hj : j < (distinctSorted ((validPairs a b).map (·.2))).length) :
    0 < ((crosstab a b).map fun row => row.getD j 0).sum := by
  have hbvj : (distinctSorted ((validPairs a b).map (·.2))).get ⟨j, hj⟩ ∈
      distinctSorted ((validPairs a b).map (·.2)) := List.get_mem _ _ _
  rcases List.mem_map.mp (mem_distinctSorted.mp hbvj) with ⟨p₀, hp₀, hsnd⟩
  have hav : p₀.1 ∈ distinctSorted ((validPairs a b).map (·.1)) :=
    mem_distinctSorted.mpr (List.mem_map_of_mem _ hp₀)
  have hgetD : ∀ av : ℚ,
      ((distinctSorted ((validPairs a b).map (·.2))).map
        (fun bv => ctabCount (validPairs a b) av bv)).getD j 0 =
      ctabCount (validPairs a b) av
        ((distinctSorted ((validPairs a b).map (·.2))).get ⟨j, hj⟩) := by
    intro av
    rw [List.getD_eq_getElem?_getD, List.getElem?_map,
      List.getElem?_eq_getElem hj]
    simp [List.get_eq_getElem]
  have hmem : ctabCount (validPairs a b) p₀.1
      ((distinctSorted ((validPairs a b).map (·.2))).get ⟨j, hj⟩) ∈
      ((crosstab a b).map fun row => row.getD j 0) := by
    unfold crosstab
    rw [List.map_map]
    apply List.mem_map.mpr
    exact ⟨p₀.1, hav, hgetD p₀.1⟩
  apply lt_of_lt_of_le _ (List.single_le_sum (fun x _ => Nat.zero_le x) _ hmem)
  rw [← hsnd]
  exact ctabCount_pos hp₀

/-- On a crosstab of at least one valid observation, `chi2_contingency`
never raises. -/
theorem chi2_crosstab_ok (sfun pfun : List (List ℕ) → ℚ) {a b : List Cell}
    (h : validPairs a b ≠ []) :
    ∃ c q, chi2_contingency sfun pfun (crosstab a b) = .ok (c, q) := by
  have havs : distinctSorted ((validPairs a b).map (·.1)) ≠ [] :=
    distinctSorted_ne_nil (by simpa using h)
  have hbvs : distinctSorted ((validPairs a b).map (·.2)) ≠ [] :=
    distinctSorted_ne_nil (by simpa using h)
  have ht : crosstab a b ≠ [] := by
    unfold crosstab
    simpa using havs
  have hhead : (crosstab a b).headD [] ≠ [] := by
    unfold crosstab
    rcases List.exists_cons_of_ne_nil havs with ⟨av, avs', hav⟩
    rw [hav]
    simpa using hbvs
  have hrows : ((crosstab a b).any fun r => r.sum = 0) = false := by
    rw [List.any_eq_false]
    intro r hr
    simpa using (crosstab_row_sum_pos hr).ne'
  have hcols : colHasZero (crosstab a b) = false := by
    unfold colHasZero
    rcases List.exists_cons_of_ne_nil ht with ⟨r, rest, hteq⟩
    rw [hteq]
    rw [List.any_eq_false]
    intro j hjr
    rw [List.mem_range] at hjr
    have hrlen : r.length = (distinctSorted ((validPairs a b).map (·.2))).length := by
      have : r ∈ crosstab a b := by rw [hteq]; exact List.mem_cons_self _ _
      unfold crosstab at this
      rcases List.mem_map.mp this with ⟨av, _, rfl⟩
      simp
    have hj : j < (distinctSorted ((validPairs a b).map (·.2))).length := by
      rw [← hrlen]; exact hjr
    have := crosstab_col_sum_pos (a := a) (b := b) hj
    rw [hteq] at this
    simpa using this.ne'
  unfold chi2_contingency
  rw [if_neg (not_or.mpr ⟨ht, hhead⟩), if_neg (not_or.mpr ⟨by simp [hrows], by simp [hcols]⟩)]
  by_cases hdof : ((crosstab a b).length - 1) * (((crosstab a b).headD []).length - 1) = 0
  · rw [if_pos hdof]
    exact ⟨0, 1, rfl⟩
  · rw [if_neg hdof]
    exact ⟨_, _, rfl⟩

theorem ebind_ok {α β : Type} (a : α) (f : α → Except Err β) :
    Except.bind (.ok a) f = f a := rfl

theorem ebind_error {α β : Type} (e : Err) (f : α → Except Err β) :
    Except.bind (.error e) f = (.error e : Except Err β) := rfl

theorem emap_ok {α β : Type} (f : α → β) (a : α) :
    Except.map f (.ok a : Except Err α) = .ok (f a) := rfl

theorem emap_error {α β : Type} (f : α → β) (e : Err) :
    Except.map f (.error e : Except Err α) = .error e := rfl

theorem featureRow_ok {sfun pfun : List (List ℕ) → ℚ} {g feat : List Cell}
    {name : String} {row : GDRow}
    (h : featureRow sfun pfun g feat name = .ok row) :
    row.feature = name ∧
    row.pcts = percentagesByGroup g feat ∧
    row.max_group_difference =
      maxQ (row.pcts.map (·.2)) - minQ (row.pcts.map (·.2)) ∧
    row.significance_score = row.max_group_difference / (row.p_value + epsQ) ∧
    chi2_contingency sfun pfun (crosstab g (maskCell (isnullB feat))) =
      .ok (row.chi2_statistic, row.p_value) := by
  unfold featureRow at h
  cases hc : chi2_contingency sfun pfun (crosstab g (maskCell (isnullB feat))) with
  | error e =>
    rw [hc, emap_error] at h
    cases h
  | ok pr =>
    rw [hc, emap_ok] at h
    obtain ⟨chi2, p⟩ := pr
    simp only [Except.ok.injEq] at h
    subst h
    simp

theorem gdRows_ok_mem {sfun pfun : List (List ℕ) → ℚ} {df : DataFrame}
    {group : String} {feats : List String} {rows : List GDRow}
    (h : gdRows sfun pfun df group feats = .ok rows) :
    ∀ row ∈ rows, ∃ f, f ∈ feats ∧ ∃ g feat,
      getCol df group = .ok g ∧ getCol df f = .ok feat ∧
      featureRow sfun pfun g feat f = .ok row := by
  induction feats generalizing rows with
  | nil =>
    unfold gdRows at h
    simp only [Except.ok.injEq] at h
    subst h
    intro row hrow
    cases hrow
  | cons f fs ih =>
    unfold gdRows at h
    cases h1 : getCol df f with
    | error e => rw [h1, ebind_error] at h; cases h
    | ok feat =>
      rw [h1, ebind_ok] at h
      cases h2 : getCol df group with
      | error e => rw [h2, ebind_error] at h; cases h
      | ok g =>
        rw [h2, ebind_ok] at h
        cases h3 : featureRow sfun pfun g feat f with
        | error e => rw [h3, ebind_error] at h; cases h
        | ok row₀ =>
          rw [h3, ebind_ok] at h
          cases h4 : gdRows sfun pfun df group fs with
          | error e => rw [h4, emap_error] at h; cases h
          | ok rest =>
            rw [h4, emap_ok] at h
            simp only [Except.ok.injEq] at h
            subst h
            intro row hrow
            rcases List.mem_cons.mp hrow with rfl | hmem
            · exact ⟨f, List.mem_cons_self _ _, g, feat, rfl, h1, h3⟩
            · rcases ih h4 row hmem with ⟨f', hf', g', feat', hg', hfeat', hrow'⟩
              rw [h2] at hg'
              exact ⟨f', List.mem_cons_of_mem _ hf', g', feat', hg', hfeat', hrow'⟩

theorem gdRows_error_of_feat {sfun pfun : List (List ℕ) → ℚ} {df : DataFrame}
    {group : String} {feats : List String} {f : String}
    (hf : f ∈ feats) (habs : alookup df.cols f = none) :
    isError (gdRows sfun pfun df group feats) := by
  induction feats with
  | nil => cases hf
  | cons f₀ fs ih =>
    unfold gdRows
    cases h1 : getCol df f₀ with
    | error e => rw [ebind_error]; exact ⟨e, rfl⟩
    | ok feat =>
      rw [ebind_ok]
      rcases List.mem_cons.mp hf with rfl | hmem
      · unfold getCol at h1
        rw [habs] at h1
        cases h1
      · cases h2 : getCol df group with
        | error e => rw [ebind_error]; exact ⟨e, rfl⟩
        | ok g =>
          rw [ebind_ok]
          cases h3 : featureRow sfun pfun g feat f₀ with
          | error e => rw [ebind_error]; exact ⟨e, rfl⟩
          | ok row =>
            rw [ebind_ok]
            rcases ih hmem with ⟨e, he⟩
            rw [he, emap_error]
            exact ⟨e, rfl⟩

theorem gdRows_error_of_group {sfun pfun : List (List ℕ) → ℚ} {df : DataFrame}
    {group : String} {feats : List String}
    (hne : feats ≠ []) (habs : alookup df.cols group = none) :
    isError (gdRows sfun pfun df group feats) := by
  cases feats with
  | nil => exact absurd rfl hne
  | cons f fs =>
    unfold gdRows
    cases h1 : getCol df f with
    | error e => rw [ebind_error]; exact ⟨e, rfl⟩
    | ok feat =>
      rw [ebind_ok]
      have h2 : getCol df group = .error .keyError := by
        unfold getCol
        rw [habs]
      rw [h2, ebind_error]
      exact ⟨.keyError, rfl⟩

theorem dedupRows_subset {rows : List GDRow} {row : GDRow}
    (h : row ∈ dedupRows rows) : row ∈ rows := by
  induction rows with
  | nil => cases h
  | cons r rs ih =>
    unfold dedupRows at h
    rcases List.mem_cons.mp h with rfl | hmem
    · exact List.mem_cons_self _ _
    · exact List.mem_cons_of_mem _ (ih (List.mem_of_mem_filter hmem))

theorem alookup_some_mem {α : Type} {l : List (String × α)} {q : String} {v : α}
    (h : alookup l q = some v) : (q, v) ∈ l := by
  induction l with
  | nil => cases h
  | cons p t ih =>
    unfold alookup at h
    by_cases hq : p.1 = q
    · rw [if_pos hq] at h
      simp only [Option.some.injEq] at h
      subst h
      rcases p with ⟨k, w⟩
      simp only at hq
      subst hq
      exact List.mem_cons_self _ _
    · rw [if_neg hq] at h
      exact List.mem_cons_of_mem _ (ih h)

theorem getCol_ok_mem {df : DataFrame} {name : String} {v : List Cell}
    (h : getCol df name = .ok v) : (name, v) ∈ df.cols := by
  unfold getCol at h
  cases ha : alookup df.cols name with
  | none => rw [ha] at h; cases h
  | some w =>
    rw [ha] at h
    simp only [Except.ok.injEq] at h
    subst h
    exact alookup_some_mem ha

theorem ratio_bounds {m n : ℕ} (h : m ≤ n) :
    0 ≤ 100 * (m : ℚ) / (n : ℚ) ∧ 100 * (m : ℚ) / (n : ℚ) ≤ 100 := by
  rcases Nat.eq_zero_or_pos n with rfl | hn
  · interval_cases m
    norm_num
  · have hn' : (0 : ℚ) < n := by exact_mod_cast hn
    constructor
    · positivity
    · rw [div_le_iff₀ hn']
      have : (m : ℚ) ≤ (n : ℚ) := by exact_mod_cast h
      linarith

theorem percentagesByGroup_mem {g feat : List Cell} {v pct : ℚ}
    (h : (v, pct) ∈ percentagesByGroup g feat) :
    some v ∈ g ∧
    pct = 100 * (((((g.zip feat).filter (fun p => p.1 = some v)).map (·.2)).filter
        (·.isNone)).length : ℚ) /
      ((((g.zip feat).filter (fun p => p.1 = some v)).map (·.2)).length : ℚ) := by
  unfold percentagesByGroup at h
  rcases List.mem_map.mp h with ⟨v', hv', heq⟩
  simp only [Prod.mk.injEq] at heq
  obtain ⟨rfl, rfl⟩ := heq
  refine ⟨?_, rfl⟩
  have hv'' : v' ∈ g.filterMap id := mem_distinctSorted.mp hv'
  rcases List.mem_filterMap.mp hv'' with ⟨c, hc, hcc⟩
  cases c with
  | none => cases hcc
  | some w =>
    simp only [id_eq, Option.some.injEq] at hcc
    subst hcc
    exact hc

theorem percentagesByGroup_bounds {g feat : List Cell} {v pct : ℚ}
    (h : (v, pct) ∈ percentagesByGroup g feat) : 0 ≤ pct ∧ pct ≤ 100 := by
  rcases percentagesByGroup_mem h with ⟨-, hpct⟩
  rw [hpct]
  exact ratio_bounds (List.length_filter_le _ _)

theorem percentagesByGroup_rows_pos {g feat : List Cell} {v pct : ℚ}
    (hlen : feat.length = g.length)
    (h : (v, pct) ∈ percentagesByGroup g feat) :
    0 < ((g.zip feat).filter (fun p => p.1 = some v)).length := by
  rcases percentagesByGroup_mem h with ⟨hv, -⟩
  rcases List.mem_iff_getElem.mp hv with ⟨i, hi, hgi⟩
  have hiz : i < (g.zip feat).length := by
    rw [List.length_zip, hlen, Nat.min_self]
    exact hi
  apply List.length_pos.mpr
  apply List.ne_nil_of_mem (a := (g.zip feat)[i])
  apply List.mem_filter.mpr
  refine ⟨List.getElem_mem hiz, ?_⟩
  have hif : i < feat.length := by omega
  have : (g.zip feat)[i] = (g[i], feat[i]) := List.getElem_zip
  rw [this]
  simp [hgi]

theorem analyze_gd_ok {sfun pfun : List (List ℕ) → ℚ} {df : DataFrame}
    {group : String} {feats : List String}
    {out : List GDRow × List GDRow × List GDRow}
    (h : analyze_group_differences sfun pfun df group feats = .ok out) :
    ∃ rows, gdRows sfun pfun df group feats = .ok rows ∧
      out.1 = dedupRows rows ∧
      out.2.1 = sortRowsBy (·.p_value) (out.1.map roundRow3) ∧
      out.2.2 = sortRowsByDesc (·.significance_score) (out.1.map roundRow3) := by
  unfold analyze_group_differences at h
  cases hg : gdRows sfun pfun df group feats with
  | error e => rw [hg, ebind_error] at h; cases h
  | ok rows =>
    rw [hg, ebind_ok] at h
    split at h
    · cases h
    · simp only [Except.ok.injEq] at h
      subst h
      exact ⟨rows, rfl, rfl, rfl, rfl⟩

theorem analyze_gd_error_of_gdRows {sfun pfun : List (List ℕ) → ℚ}
    {df : DataFrame} {group : String} {feats : List String}
    (h : isError (gdRows sfun pfun df group feats)) :
    isError (analyze_group_differences sfun pfun df group feats) := by
  rcases h with ⟨e, he⟩
  unfold analyze_group_differences
  rw [he, ebind_error]
  exact ⟨e, rfl⟩

/-!
## Claim theorems
-/

/-- C1: for every feature processed by `analyze_group_differences`, the
emitted (full-precision) `significance_score` equals `max_group_difference`
divided by `(p_value + 1e-10)`, where `max_group_difference` is the maximum
per-group missing percentage minus the minimum per-group missing percentage
computed for that feature from the dataset. -/
theorem significance_score_formula (sfun pfun : List (List ℕ) → ℚ)
    (df : DataFrame) (group : String) (feats : List String)
    (out : List GDRow × List GDRow × List GDRow)
    (h : analyze_group_differences sfun pfun df group feats = .ok out) :
    ∀ row ∈ out.1, ∃ gcol featcol,
      getCol df group = .ok gcol ∧ getCol df row.feature = .ok featcol ∧
      row.pcts = percentagesByGroup gcol featcol ∧
      row.max_group_difference =
        maxQ (row.pcts.map (·.2)) - minQ (row.pcts.map (·.2)) ∧
      row.significance_score =
        row.max_group_difference / (row.p_value + epsQ) := by
  intro row hrow
  rcases analyze_gd_ok h with ⟨rows, hg, hout1, -, -⟩
  rw [hout1] at hrow
  rcases gdRows_ok_mem hg row (dedupRows_subset hrow) with
    ⟨f, hf, gcol, featcol, hgc, hfc, hfr⟩
  rcases featureRow_ok hfr with ⟨hname, hpcts, hmaxd, hsig, -⟩
  exact ⟨gcol, featcol, hgc, by rw [hname]; exact hfc, hpcts, hmaxd, hsig⟩

set_option maxRecDepth 4000 in
/-- C1 witness: the formula holds concretely for feature `x` of `dfW`. -/
theorem significance_score_formula_witness :
    ∃ gcol featcol,
      getCol dfW "g" = .ok gcol ∧ getCol dfW rowW.feature = .ok featcol ∧
      rowW.pcts = percentagesByGroup gcol featcol ∧
      rowW.max_group_difference =
        maxQ (rowW.pcts.map (·.2)) - minQ (rowW.pcts.map (·.2)) ∧
      rowW.significance_score =
        rowW.max_group_difference / (rowW.p_value + epsQ) :=
  significance_score_formula exStat exChiP dfW "g" ["x"] outW
    (by decide) rowW (List.mem_cons_self _ _)

/-- C3: `analyze_group_differences` fails with a fatal error — no result is
produced — whenever `group_column` or any feature of `feature_list` is absent
from the dataset; and on success every emitted per-group percentage comes
from a group with at least one row (its value being the missing fraction of
those rows), so a zero-row group is never silently reported as a 0% missing
rate. -/
theorem input_error_on_bad_columns (sfun pfun : List (List ℕ) → ℚ)
    (df : DataFrame) (group : String) (feats : List String) (n : ℕ)
    (hlen : ∀ c ∈ df.cols, c.2.length = n) :
    ((alookup df.cols group = none ∨ ∃ f, f ∈ feats ∧ alookup df.cols f = none) →
      isError (analyze_group_differences sfun pfun df group feats)) ∧
    (∀ out, analyze_group_differences sfun pfun df group feats = .ok out →
      ∀ row ∈ out.1, ∀ vp ∈ row.pcts, ∃ gcol featcol,
        getCol df group = .ok gcol ∧ getCol df row.feature = .ok featcol ∧
        0 < ((gcol.zip featcol).filter (fun p => p.1 = some vp.1)).length ∧
        vp.2 = 100 * (((((gcol.zip featcol).filter (fun p => p.1 = some vp.1)).map
            (·.2)).filter (·.isNone)).length : ℚ) /
          ((((gcol.zip featcol).filter (fun p => p.1 = some vp.1)).map
            (·.2)).length : ℚ)) := by
  constructor
  · rintro (hgr | ⟨f, hf, habs⟩)
    · cases hfe : feats with
      | nil =>
        unfold analyze_group_differences gdRows
        rw [ebind_ok]
        rw [if_pos (show dedupRows ([] : List GDRow) = [] from rfl)]
        exact ⟨.keyError, rfl⟩
      | cons f fs =>
        exact analyze_gd_error_of_gdRows
          (gdRows_error_of_group (by simp) hgr)
    · exact analyze_gd_error_of_gdRows (gdRows_error_of_feat hf habs)
  · intro out hout row hrow vp hvp
    rcases analyze_gd_ok hout with ⟨rows, hg, hout1, -, -⟩
    rw [hout1] at hrow
    rcases gdRows_ok_mem hg row (dedupRows_subset hrow) with
      ⟨f, hf, gcol, featcol, hgc, hfc, hfr⟩
    rcases featureRow_ok hfr with ⟨hname, hpcts, -, -, -⟩
    rw [hpcts] at hvp
    obtain ⟨v, pct⟩ := vp
    rcases percentagesByGroup_mem hvp with ⟨-, hform⟩
    have hglen : gcol.length = n := hlen _ (getCol_ok_mem hgc)
    have hflen : featcol.length = n := hlen _ (getCol_ok_mem hfc)
    refine ⟨gcol, featcol, hgc, by rw [hname]; exact hfc, ?_, hform⟩
    exact percentagesByGroup_rows_pos (by rw [hglen, hflen]) hvp

/-- C3 witness: requesting the absent feature `zzz` on `dfTie` aborts the
whole call with an error. -/
theorem input_error_on_bad_columns_witness :
    isError (analyze_group_differences exStat exChiP dfTie "g" ["zzz"]) :=
  (input_error_on_bad_columns exStat exChiP dfTie "g" ["zzz"] 4
    (by decide)).1 (Or.inr ⟨"zzz", by decide, by decide⟩)

theorem sortRowsBy_perm (key : GDRow → ℚ) (rows : List GDRow) :
    (sortRowsBy key rows).Perm rows :=
  List.perm_insertionSort _ rows

theorem sortRowsBy_sorted (key : GDRow → ℚ) (rows : List GDRow) :
    List.Sorted (fun a b => key a ≤ key b) (sortRowsBy key rows) := by
  haveI : IsTotal GDRow (fun a b => key a ≤ key b) := ⟨fun a b => le_total _ _⟩
  haveI : IsTrans GDRow (fun a b => key a ≤ key b) :=
    ⟨fun a b c hab hbc => le_trans hab hbc⟩
  exact List.sorted_insertionSort _ rows

theorem sortRowsByDesc_perm (key : GDRow → ℚ) (rows : List GDRow) :
    (sortRowsByDesc key rows).Perm rows := by
  unfold sortRowsByDesc
  exact (List.reverse_perm _).trans
    ((List.perm_insertionSort _ _).trans (List.reverse_perm _))

theorem sortRowsByDesc_sorted (key : GDRow → ℚ) (rows : List GDRow) :
    List.Sorted (fun a b => key b ≤ key a) (sortRowsByDesc key rows) := by
  unfold sortRowsByDesc
  rw [List.Sorted, List.pairwise_reverse]
  exact sortRowsBy_sorted key rows.reverse

/-- C8 counterexample: on `dfTie`, the two features get the distinct
p-values `0.1232` and `0.1231`, which `round(3)` merges to `0.123` *before*
the tables are sorted; the emitted p-value view keeps them in feature-list
order `[f1, f2]`, while sorting the retained full-precision rows by their
p-values orders them `[f2, f1]`.  The ranked view is therefore not ordered
by the full-precision sort key. -/
theorem rounding_before_sorting_cex :
    (analyze_group_differences exStat exChiP dfTie "g" ["f1", "f2"]).toOption.map
      (fun out => decide (out.2.1.map (·.feature) =
        (sortRowsBy (·.p_value) out.1).map (·.feature))) = some false := by
  decide

/-- C8 amended: the per-feature statistics are rounded to 3 decimal places
*before* the two ranked views are formed: each view is a permutation of the
rounded row set, ordered by its (rounded) sort key — ascending `p_value`,
respectively descending `significance_score`.  The full-precision rows are
not what the persisted views sort. -/
theorem views_are_rounded_then_sorted (sfun pfun : List (List ℕ) → ℚ)
    (df : DataFrame) (group : String) (feats : List String)
    (out : List GDRow × List GDRow × List GDRow)
    (h : analyze_group_differences sfun pfun df group feats = .ok out) :
    out.2.1.Perm (out.1.map roundRow3) ∧
    List.Sorted (fun a b => a.p_value ≤ b.p_value) out.2.1 ∧
    out.2.2.Perm (out.1.map roundRow3) ∧
    List.Sorted (fun a b => b.significance_score ≤ a.significance_score)
      out.2.2 := by
  rcases analyze_gd_ok h with ⟨rows, -, -, hv1, hv2⟩
  rw [hv1, hv2]
  exact ⟨sortRowsBy_perm _ _, sortRowsBy_sorted _ _,
    sortRowsByDesc_perm _ _, sortRowsByDesc_sorted _ _⟩

/-- C8 amended witness: concrete instance on `dfW`. -/
theorem views_are_rounded_then_sorted_witness :
    outW.2.1.Perm (outW.1.map roundRow3) ∧
    List.Sorted (fun a b => a.p_value ≤ b.p_value) outW.2.1 ∧
    outW.2.2.Perm (outW.1.map roundRow3) ∧
    List.Sorted (fun a b => b.significance_score ≤ a.significance_score)
      outW.2.2 :=
  views_are_rounded_then_sorted exStat exChiP dfW "g" ["x"] outW (by decide)

theorem chi2_ok_pval_bounds {sfun pfun : List (List ℕ) → ℚ}
    {t : List (List ℕ)} {c q : ℚ}
    (hp : ∀ t', 0 ≤ pfun t' ∧ pfun t' ≤ 1)
    (h : chi2_contingency sfun pfun t = .ok (c, q)) : 0 ≤ q ∧ q ≤ 1 := by
  unfold chi2_contingency at h
  split at h
  · cases h
  · split at h
    · cases h
    · split at h
      · simp only [Except.ok.injEq, Prod.mk.injEq] at h
        rw [← h.2]
        norm_num
      · simp only [Except.ok.injEq, Prod.mk.injEq] at h
        rw [← h.2]
        exact hp t

theorem gd_fullrow_bounds {sfun pfun : List (List ℕ) → ℚ} {df : DataFrame}
    {group : String} {feats : List String}
    {out : List GDRow × List GDRow × List GDRow}
    (hp : ∀ t', 0 ≤ pfun t' ∧ pfun t' ≤ 1)
    (h : analyze_group_differences sfun pfun df group feats = .ok out) :
    ∀ row ∈ out.1, (0 ≤ row.p_value ∧ row.p_value ≤ 1) ∧
      ∀ vp ∈ row.pcts, 0 ≤ vp.2 ∧ vp.2 ≤ 100 := by
  intro row hrow
  rcases analyze_gd_ok h with ⟨rows, hg, hout1, -, -⟩
  rw [hout1] at hrow
  rcases gdRows_ok_mem hg row (dedupRows_subset hrow) with
    ⟨f, -, gcol, featcol, -, -, hfr⟩
  rcases featureRow_ok hfr with ⟨-, hpcts, -, -, hchi⟩
  refine ⟨chi2_ok_pval_bounds hp hchi, ?_⟩
  intro vp hvp
  rw [hpcts] at hvp
  obtain ⟨v, pct⟩ := vp
  exact percentagesByGroup_bounds hvp

theorem roundRow3_bounds {row : GDRow}
    (hpv : 0 ≤ row.p_value ∧ row.p_value ≤ 1)
    (hpc : ∀ vp ∈ row.pcts, 0 ≤ vp.2 ∧ vp.2 ≤ 100) :
    (0 ≤ (roundRow3 row).p_value ∧ (roundRow3 row).p_value ≤ 1) ∧
    ∀ vp ∈ (roundRow3 row).pcts, 0 ≤ vp.2 ∧ vp.2 ≤ 100 := by
  constructor
  · constructor
    · exact round3_nonneg hpv.1
    · have := round3_le_int (k := 1) (by exact_mod_cast hpv.2)
      exact_mod_cast this
  · intro vp hvp
    unfold roundRow3 at hvp
    simp only at hvp
    rcases List.mem_map.mp hvp with ⟨⟨v, pct⟩, hmem, heq⟩
    rcases hpc _ hmem with ⟨h0, h100⟩
    subst heq
    constructor
    · exact round3_nonneg h0
    · have := round3_le_int (k := 100) (by exact_mod_cast h100)
      exact_mod_cast this

theorem pairwiseInner_ok_mem {sfun pfun : List (List ℕ) → ℚ} {c1 : String}
    {xs : List Cell} {cols : List (String × List Cell)} {rows : List PairRow}
    (h : pairwiseInner sfun pfun c1 xs cols = .ok rows) :
    ∀ r ∈ rows, ∃ t, chi2_contingency sfun pfun t =
      .ok (r.chi2_statistic, r.p_value) := by
  induction cols generalizing rows with
  | nil =>
    unfold pairwiseInner at h
    simp only [Except.ok.injEq] at h
    subst h
    intro r hr
    cases hr
  | cons c rest ih =>
    obtain ⟨c2, ys⟩ := c
    unfold pairwiseInner at h
    by_cases hlt : strLt c1 c2
    · rw [if_pos hlt] at h
      cases hc : chi2_contingency sfun pfun
          (crosstab (maskCell (isnullB xs)) (maskCell (isnullB ys))) with
      | error e => rw [hc, ebind_error] at h; cases h
      | ok sp =>
        rw [hc, ebind_ok] at h
        cases hrest : pairwiseInner sfun pfun c1 xs rest with
        | error e => rw [hrest, emap_error] at h; cases h
        | ok rs =>
          rw [hrest, emap_ok] at h
          simp only [Except.ok.injEq] at h
          subst h
          intro r hr
          rcases List.mem_cons.mp hr with rfl | hmem
          · exact ⟨_, by rw [hc]⟩
          · exact ih hrest r hmem
    · rw [if_neg hlt] at h
      exact ih h

theorem pairwiseOuter_ok_mem {sfun pfun : List (List ℕ) → ℚ}
    {cols all : List (String × List Cell)} {rows : List PairRow}
    (h : pairwiseOuter sfun pfun cols all = .ok rows) :
    ∀ r ∈ rows, ∃ t, chi2_contingency sfun pfun t =
      .ok (r.chi2_statistic, r.p_value) := by
  induction cols generalizing rows with
  | nil =>
    unfold pairwiseOuter at h
    simp only [Except.ok.injEq] at h
    subst h
    intro r hr
    cases hr
  | cons c rest ih =>
    obtain ⟨c1, xs⟩ := c
    unfold pairwiseOuter at h
    cases hin : pairwiseInner sfun pfun c1 xs all with
    | error e => rw [hin, ebind_error] at h; cases h
    | ok rows₁ =>
      rw [hin, ebind_ok] at h
      cases hout : pairwiseOuter sfun pfun rest all with
      | error e => rw [hout, emap_error] at h; cases h
      | ok more =>
        rw [hout, emap_ok] at h
        simp only [Except.ok.injEq] at h
        subst h
        intro r hr
        rcases List.mem_append.mp hr with h1 | h2
        · exact pairwiseInner_ok_mem hin r h1
        · exact ih hout r h2

theorem survCol_ok_some {mfun : List ℚ → List ℚ → ℚ}
    {sfun pfun : List (List ℕ) → ℚ} {df : DataFrame} {c : String × List Cell}
    {o : Option SurvRow} (h : survCol mfun sfun pfun df c = .ok o) :
    ∀ r, o = some r →
      r.var = c.1 ∧
      (∃ x y, mannwhitneyu mfun x y = .ok r.time_diff_pvalue) ∧
      (∃ t cst, chi2_contingency sfun pfun t = .ok (cst, r.event_diff_pvalue)) := by
  unfold survCol at h
  split at h
  · cases het : getCol df "efs_time" with
    | error e => rw [het, ebind_error] at h; cases h
    | ok et =>
      rw [het, ebind_ok] at h
      cases hmw : mannwhitneyu mfun (dropnaAt (isnullB c.2) et true)
          (dropnaAt (isnullB c.2) et false) with
      | error e => rw [hmw, ebind_error] at h; cases h
      | ok p1 =>
        rw [hmw, ebind_ok] at h
        cases hefs : getCol df "efs" with
        | error e => rw [hefs, ebind_error] at h; cases h
        | ok efs =>
          rw [hefs, ebind_ok] at h
          cases hchi : chi2_contingency sfun pfun
              (crosstab (maskCell (isnullB c.2)) efs) with
          | error e => rw [hchi, emap_error] at h; cases h
          | ok sp =>
            rw [hchi, emap_ok] at h
            simp only [Except.ok.injEq] at h
            subst h
            intro r hr
            simp only [Option.some.injEq] at hr
            subst hr
            exact ⟨rfl, ⟨_, _, hmw⟩, ⟨_, _, by rw [hchi]⟩⟩
  · simp only [Except.ok.injEq] at h
    subst h
    intro r hr
    cases hr

theorem survRows_ok_mem {mfun : List ℚ → List ℚ → ℚ}
    {sfun pfun : List (List ℕ) → ℚ} {df : DataFrame}
    {cols : List (String × List Cell)} {rows : List SurvRow}
    (h : survRows mfun sfun pfun df cols = .ok rows) :
    ∀ r ∈ rows,
      (∃ x y, mannwhitneyu mfun x y = .ok r.time_diff_pvalue) ∧
      (∃ t cst, chi2_contingency sfun pfun t = .ok (cst, r.event_diff_pvalue)) := by
  induction cols generalizing rows with
  | nil =>
    unfold survRows at h
    simp only [Except.ok.injEq] at h
    subst h
    intro r hr
    cases hr
  | cons c cs ih =>
    unfold survRows at h
    cases hc : survCol mfun sfun pfun df c with
    | error e => rw [hc, ebind_error] at h; cases h
    | ok o =>
      rw [hc, ebind_ok] at h
      cases hrest : survRows mfun sfun pfun df cs with
      | error e => rw [hrest, emap_error] at h; cases h
      | ok rest =>
        rw [hrest, emap_ok] at h
        simp only [Except.ok.injEq] at h
        subst h
        intro r hr
        cases o with
        | none => exact ih hrest r hr
        | some r₀ =>
          simp only [Option.elim] at hr
          rcases List.mem_cons.mp hr with rfl | hmem
          · rcases survCol_ok_some hc r rfl with ⟨-, hmw, hchi⟩
            exact ⟨hmw, hchi⟩
          · exact ih hrest r hmem

theorem mannwhitneyu_ok_val {mfun : List ℚ → List ℚ → ℚ} {x y : List ℚ} {p : ℚ}
    (h : mannwhitneyu mfun x y = .ok p) : p = mfun x y := by
  unfold mannwhitneyu at h
  split at h
  · cases h
  · simp only [Except.ok.injEq] at h
    exact h.symm

/-- C7: provided the abstracted SciPy p-value functions return values in
`[0,1]` (their documented contract), every `p_value` emitted by any of the
three analyzers lies in `[0,1]` — including the exact `p = 1` of degenerate
zero-dof tables and the rounded values of the two ranked views — and every
per-group missing percentage emitted by `analyze_group_differences`
(full-precision or rounded) lies in `[0,100]`. -/
theorem pvalues_and_percentages_in_range
    (sfun pfun : List (List ℕ) → ℚ) (mfun : List ℚ → List ℚ → ℚ)
    (hp : ∀ t, 0 ≤ pfun t ∧ pfun t ≤ 1)
    (hm : ∀ x y, 0 ≤ mfun x y ∧ mfun x y ≤ 1) :
    (∀ df group feats out,
      analyze_group_differences sfun pfun df group feats = .ok out →
      ∀ row, (row ∈ out.1 ∨ row ∈ out.2.1 ∨ row ∈ out.2.2) →
        (0 ≤ row.p_value ∧ row.p_value ≤ 1) ∧
        ∀ vp ∈ row.pcts, 0 ≤ vp.2 ∧ vp.2 ≤ 100) ∧
    (∀ df out, pairwiseChiSquare sfun pfun df = .ok out →
      ∀ r ∈ out, 0 ≤ r.p_value ∧ r.p_value ≤ 1) ∧
    (∀ df out, survivalAnalysis mfun sfun pfun df = .ok out →
      ∀ r ∈ out, (0 ≤ r.time_diff_pvalue ∧ r.time_diff_pvalue ≤ 1) ∧
        (0 ≤ r.event_diff_pvalue ∧ r.event_diff_pvalue ≤ 1)) := by
  refine ⟨?_, ?_, ?_⟩
  · intro df group feats out h row hrow
    have hfull := gd_fullrow_bounds hp h
    rcases hrow with h1 | h2 | h3
    · exact hfull row h1
    · rcases analyze_gd_ok h with ⟨rows, -, -, hv1, -⟩
      rw [hv1] at h2
      have : row ∈ out.1.map roundRow3 := (sortRowsBy_perm _ _).mem_iff.mp h2
      rcases List.mem_map.mp this with ⟨row₀, hmem, rfl⟩
      rcases hfull row₀ hmem with ⟨hpv, hpc⟩
      exact roundRow3_bounds hpv hpc
    · rcases analyze_gd_ok h with ⟨rows, -, -, -, hv2⟩
      rw [hv2] at h3
      have : row ∈ out.1.map roundRow3 := (sortRowsByDesc_perm _ _).mem_iff.mp h3
      rcases List.mem_map.mp this with ⟨row₀, hmem, rfl⟩
      rcases hfull row₀ hmem with ⟨hpv, hpc⟩
      exact roundRow3_bounds hpv hpc
  · intro df out h r hr
    rcases pairwiseOuter_ok_mem h r hr with ⟨t, hchi⟩
    exact chi2_ok_pval_bounds hp hchi
  · intro df out h r hr
    rcases survRows_ok_mem h r hr with ⟨⟨x, y, hmw⟩, ⟨t, cst, hchi⟩⟩
    refine ⟨?_, chi2_ok_pval_bounds hp hchi⟩
    rw [mannwhitneyu_ok_val hmw]
    exact hm x y

/-- C7 witness: concrete bounds for the first row of the pairwise table of
`dfMixed` (with in-range p-value stand-ins). -/
theorem pvalues_and_percentages_in_range_witness :
    0 ≤ (⟨"a", "b", 0, 1⟩ : PairRow).p_value ∧
      (⟨"a", "b", 0, 1⟩ : PairRow).p_value ≤ 1 :=
  (pvalues_and_percentages_in_range exStat exChiP exMwu
    (fun t => by unfold exChiP; split <;> norm_num)
    (fun x y => by unfold exMwu; norm_num)).2.1 dfMixed outPW
    (by decide) ⟨"a", "b", 0, 1⟩ (by rw [show outPW = [⟨"a", "b", 0, 1⟩,
      ⟨"a", "c", 0, 1⟩, ⟨"b", "c", 0, 1⟩] from rfl]; exact List.mem_cons_self _ _)

theorem survCol_offending_error {mfun : List ℚ → List ℚ → ℚ}
    {sfun pfun : List (List ℕ) → ℚ} {df : DataFrame} {c : String × List Cell}
    {et : List Cell}
    (het : alookup df.cols "efs_time" = some et)
    (hmiss : (isnullB c.2).any id = true)
    (hsub : dropnaAt (isnullB c.2) et true = [] ∨
      dropnaAt (isnullB c.2) et false = []) :
    survCol mfun sfun pfun df c = .error .emptySample := by
  unfold survCol
  rw [if_pos hmiss]
  have hget : getCol df "efs_time" = .ok et := by
    unfold getCol
    rw [het]
  rw [hget, ebind_ok]
  have hmw : mannwhitneyu mfun (dropnaAt (isnullB c.2) et true)
      (dropnaAt (isnullB c.2) et false) = .error .emptySample := by
    unfold mannwhitneyu
    rw [if_pos hsub]
  rw [hmw, ebind_error]

theorem survCol_no_missing {mfun : List ℚ → List ℚ → ℚ}
    {sfun pfun : List (List ℕ) → ℚ} {df : DataFrame} {c : String × List Cell}
    (hmiss : (isnullB c.2).any id = false) :
    survCol mfun sfun pfun df c = .ok none := by
  unfold survCol
  rw [if_neg (by simp [hmiss])]

theorem survRows_error_of_offending {mfun : List ℚ → List ℚ → ℚ}
    {sfun pfun : List (List ℕ) → ℚ} {df : DataFrame} {et : List Cell}
    {cols : List (String × List Cell)}
    (het : alookup df.cols "efs_time" = some et)
    (hoff : ∃ c, c ∈ cols ∧ (isnullB c.2).any id = true ∧
      (dropnaAt (isnullB c.2) et true = [] ∨
        dropnaAt (isnullB c.2) et false = [])) :
    isError (survRows mfun sfun pfun df cols) := by
  induction cols with
  | nil =>
    rcases hoff with ⟨c, hc, -⟩
    cases hc
  | cons c cs ih =>
    unfold survRows
    cases hc : survCol mfun sfun pfun df c with
    | error e => rw [ebind_error]; exact ⟨e, rfl⟩
    | ok o =>
      rw [ebind_ok]
      rcases hoff with ⟨c₀, hc₀, hmiss, hsub⟩
      rcases List.mem_cons.mp hc₀ with rfl | hmem
      · rw [survCol_offending_error het hmiss hsub] at hc
        cases hc
      · rcases ih ⟨c₀, hmem, hmiss, hsub⟩ with ⟨e, he⟩
        rw [he, emap_error]
        exact ⟨e, rfl⟩

theorem survRows_error_no_time_col {mfun : List ℚ → List ℚ → ℚ}
    {sfun pfun : List (List ℕ) → ℚ} {df : DataFrame}
    {cols : List (String × List Cell)}
    (habs : alookup df.cols "efs_time" = none)
    (hmiss : ∃ c, c ∈ cols ∧ (isnullB c.2).any id = true) :
    isError (survRows mfun sfun pfun df cols) := by
  induction cols with
  | nil =>
    rcases hmiss with ⟨c, hc, -⟩
    cases hc
  | cons c cs ih =>
    unfold survRows
    cases hany : (isnullB c.2).any id with
    | true =>
      have hc : survCol mfun sfun pfun df c = .error .keyError := by
        unfold survCol
        rw [if_pos hany]
        have hget : getCol df "efs_time" = .error .keyError := by
          unfold getCol
          rw [habs]
        rw [hget, ebind_error]
      rw [hc, ebind_error]
      exact ⟨.keyError, rfl⟩
    | false =>
      rw [survCol_no_missing hany, ebind_ok]
      rcases hmiss with ⟨c₀, hc₀, hm₀⟩
      rcases List.mem_cons.mp hc₀ with rfl | hmem
      · rw [hany] at hm₀
        cases hm₀
      · rcases ih ⟨c₀, hmem, hm₀⟩ with ⟨e, he⟩
        rw [he, emap_error]
        exact ⟨e, rfl⟩

/-- C4 counterexample: on `dfAllMiss` the column `x` is missing in every
row, so its "present" subset is empty; `mannwhitneyu` raises and the whole
outcome pass aborts with an error — nothing is reported in-band and the
remaining columns are not processed. -/
theorem survival_crashes_on_empty_subset_cex :
    survivalAnalysis exMwu exStat exChiP dfAllMiss = .error .emptySample := by
  decide

/-- C4 amended: when some column has a missing value but its "missing" or
"present" subset is empty after dropping missing `efs_time` values, the
outcome pass of `analyze_missing_patterns` fails with a fatal error (the
`mannwhitneyu` exception propagates) instead of emitting a NaN row for that
column and continuing. -/
theorem survival_error_on_empty_subset (mfun : List ℚ → List ℚ → ℚ)
    (sfun pfun : List (List ℕ) → ℚ) (df : DataFrame) (et : List Cell)
    (het : alookup df.cols "efs_time" = some et)
    (hoff : ∃ c, c ∈ df.cols ∧ (isnullB c.2).any id = true ∧
      (dropnaAt (isnullB c.2) et true = [] ∨
        dropnaAt (isnullB c.2) et false = [])) :
    isError (survivalAnalysis mfun sfun pfun df) :=
  survRows_error_of_offending het hoff

/-- C4 amended witness: concrete instance on `dfAllMiss`. -/
theorem survival_error_on_empty_subset_witness :
    isError (survivalAnalysis exMwu exStat exChiP dfAllMiss) :=
  survival_error_on_empty_subset exMwu exStat exChiP dfAllMiss
    [some 5, some 3] (by decide)
    ⟨("x", [none, none]), by decide, by decide, Or.inr (by decide)⟩

/-- C9 counterexample: `dfRenamed` carries the caller's outcome pair under
the names `event`/`time`, and column `x` has a missing value; the outcome
step nevertheless reads the fixed built-in name `efs_time` and the whole
pass fails with a `KeyError` instead of testing against the designated
columns. -/
theorem outcome_columns_hardcoded_cex :
    survivalAnalysis exMwu exStat exChiP dfRenamed = .error .keyError := by
  decide

/-- C9 amended: the outcome-linkage step always reads the fixed built-in
column names `efs`/`efs_time`; they are not inputs of the analysis
(`analyze_missing_patterns` takes no outcome-column parameters), and
whenever any column has a missing value but the dataset has no `efs_time`
column, the outcome pass fails outright. -/
theorem outcome_columns_hardcoded (mfun : List ℚ → List ℚ → ℚ)
    (sfun pfun : List (List ℕ) → ℚ) (df : DataFrame)
    (habs : alookup df.cols "efs_time" = none)
    (hmiss : ∃ c, c ∈ df.cols ∧ (isnullB c.2).any id = true) :
    isError (survivalAnalysis mfun sfun pfun df) :=
  survRows_error_no_time_col habs hmiss

/-- C9 amended witness: concrete instance on `dfRenamed`. -/
theorem outcome_columns_hardcoded_witness :
    isError (survivalAnalysis exMwu exStat exChiP dfRenamed) :=
  outcome_columns_hardcoded exMwu exStat exChiP dfRenamed (by decide)
    ⟨("x", [some 1, none]), by decide, by decide⟩

theorem sum_map_add {α : Type} (l : List α) (f g : α → ℕ) :
    (l.map fun a => f a + g a).sum = (l.map f).sum + (l.map g).sum := by
  induction l with
  | nil => simp
  | cons a t ih =>
    simp only [List.map_cons, List.sum_cons, ih]
    ring

theorem sum_map_ite_one {α : Type} (l : List α) (p : α → Prop) [DecidablePred p] :
    (l.map fun a => if p a then 1 else 0).sum = (l.filter (fun a => p a)).length := by
  induction l with
  | nil => simp
  | cons a t ih =>
    by_cases h : p a
    · simp [List.filter_cons, h, ih]
      omega
    · simp [List.filter_cons, h, ih]

theorem strLt_partition {l : List String} {x : String} (hx : ∀ a ∈ l, a ≠ x) :
    (l.filter (fun a => strLt x a)).length +
      (l.filter (fun a => strLt a x)).length = l.length := by
  induction l with
  | nil => simp
  | cons a t ih =>
    have hax : a ≠ x := hx a (List.mem_cons_self _ _)
    have htx : ∀ b ∈ t, b ≠ x := fun b hb => hx b (List.mem_cons_of_mem _ hb)
    have htri : strLt x a ∨ strLt a x := by
      unfold strLt
      have : a.data ≠ x.data := fun he => hax (String.ext he)
      exact (Ne.lt_or_lt this.symm).imp id id
    by_cases h1 : strLt x a
    · have h2 : ¬ strLt a x := by
        unfold strLt at h1 ⊢
        exact lt_asymm h1
      have := ih htx
      simp [List.filter_cons, h1, h2]
      omega
    · have h2 : strLt a x := htri.resolve_left h1
      have := ih htx
      simp [List.filter_cons, h1, h2]
      omega

theorem two_mul_pair_count_step (G L S k : ℕ) (hGL : G + L = k)
    (hS : 2 * S = k * (k - 1)) : 2 * (G + (L + S)) = (k + 1) * k := by
  cases k with
  | zero => omega
  | succ m =>
    have hs' : 2 * S = (m + 1) * m := by simpa using hS
    have hring : (m + 1 + 1) * (m + 1) = 2 * (m + 1) + (m + 1) * m := by ring
    rw [hring, ← hs']
    omega

theorem count_lt_pairs {l : List String} (h : l.Nodup) :
    2 * (l.map fun a => (l.filter (fun b => strLt a b)).length).sum =
      l.length * (l.length - 1) := by
  induction l with
  | nil => simp
  | cons x t ih =>
    rcases List.nodup_cons.mp h with ⟨hxt, hnd⟩
    have hxx : ¬ strLt x x := by
      unfold strLt
      exact lt_irrefl _
    have hterm : ((x :: t).filter (fun b => strLt x b)).length =
        (t.filter (fun b => strLt x b)).length := by
      simp [List.filter_cons, hxx]
    have hmap : (t.map fun a => ((x :: t).filter (fun b => strLt a b)).length) =
        t.map fun a =>
          (if strLt a x then 1 else 0) + (t.filter (fun b => strLt a b)).length := by
      apply List.map_congr_left
      intro a _
      by_cases hax : strLt a x
      · simp [List.filter_cons, hax]
        omega
      · simp [List.filter_cons, hax]
    have hsplit : (t.map fun a => ((x :: t).filter (fun b => strLt a b)).length).sum =
        (t.filter (fun a => strLt a x)).length +
          (t.map fun a => (t.filter (fun b => strLt a b)).length).sum := by
      rw [hmap, sum_map_add, sum_map_ite_one]
    have hpart := strLt_partition (x := x) (fun a ha => fun he => hxt (he ▸ ha))
    have hih := ih hnd
    simp only [List.map_cons, List.sum_cons, hterm, hsplit, List.length_cons,
      Nat.add_sub_cancel]
    exact two_mul_pair_count_step _ _ _ _ hpart hih

theorem validPairs_maskCell_length (m1 : List Bool) (m2 : List Bool) :
    (validPairs (maskCell m1) (maskCell m2)).length = min m1.length m2.length := by
  induction m1 generalizing m2 with
  | nil => simp [validPairs, maskCell]
  | cons b1 t1 ih =>
    cases m2 with
    | nil => simp [validPairs, maskCell]
    | cons b2 t2 =>
      simp only [validPairs, maskCell, List.map_cons, List.zip_cons_cons,
        List.filterMap_cons, List.length_cons]
      have := ih t2
      simp only [validPairs, maskCell] at this
      simp [this, Nat.succ_min_succ]

theorem pairwiseInner_ok_shape {sfun pfun : List (List ℕ) → ℚ} {c1 : String}
    {xs : List Cell} {cols : List (String × List Cell)} {rows : List PairRow}
    (h : pairwiseInner sfun pfun c1 xs cols = .ok rows) :
    rows.map (fun r => (r.variable1, r.variable2)) =
      (cols.filter (fun c => strLt c1 c.1)).map (fun c => (c1, c.1)) := by
  induction cols generalizing rows with
  | nil =>
    unfold pairwiseInner at h
    simp only [Except.ok.injEq] at h
    subst h
    simp
  | cons c rest ih =>
    obtain ⟨c2, ys⟩ := c
    unfold pairwiseInner at h
    by_cases hlt : strLt c1 c2
    · rw [if_pos hlt] at h
      cases hc : chi2_contingency sfun pfun
          (crosstab (maskCell (isnullB xs)) (maskCell (isnullB ys))) with
      | error e => rw [hc, ebind_error] at h; cases h
      | ok sp =>
        rw [hc, ebind_ok] at h
        cases hrest : pairwiseInner sfun pfun c1 xs rest with
        | error e => rw [hrest, emap_error] at h; cases h
        | ok rs =>
          rw [hrest, emap_ok] at h
          simp only [Except.ok.injEq] at h
          subst h
          simp only [List.map_cons, List.filter_cons]
          rw [if_pos (by simpa using hlt)]
          simp [ih hrest]
    · rw [if_neg hlt] at h
      simp only [List.filter_cons]
      rw [if_neg (by simpa using hlt)]
      exact ih h

theorem pairwiseInner_ok_exists (sfun pfun : List (List ℕ) → ℚ) (c1 : String)
    {xs : List Cell} {cols : List (String × List Cell)} {n : ℕ} (hn : 0 < n)
    (hxs : xs.length = n) (hcols : ∀ c ∈ cols, c.2.length = n) :
    ∃ rows, pairwiseInner sfun pfun c1 xs cols = .ok rows := by
  induction cols with
  | nil => exact ⟨[], rfl⟩
  | cons c rest ih =>
    obtain ⟨c2, ys⟩ := c
    have hys : ys.length = n := hcols _ (List.mem_cons_self _ _)
    have hrest : ∀ c ∈ rest, c.2.length = n :=
      fun c hc => hcols c (List.mem_cons_of_mem _ hc)
    rcases ih hrest with ⟨rs, hrs⟩
    unfold pairwiseInner
    by_cases hlt : strLt c1 c2
    · rw [if_pos hlt]
      have hne : validPairs (maskCell (isnullB xs)) (maskCell (isnullB ys)) ≠ [] := by
        intro hnil
        have := validPairs_maskCell_length (isnullB xs) (isnullB ys)
        rw [hnil] at this
        simp only [List.length_nil] at this
        unfold isnullB at this
        rw [List.length_map, List.length_map, hxs, hys, Nat.min_self] at this
        omega
      rcases chi2_crosstab_ok sfun pfun hne with ⟨cst, q, hc⟩
      rw [hc, ebind_ok, hrs, emap_ok]
      exact ⟨_, rfl⟩
    · rw [if_neg hlt]
      exact ⟨rs, hrs⟩

theorem pairwiseOuter_ok_shape {sfun pfun : List (List ℕ) → ℚ}
    {cols all : List (String × List Cell)} {rows : List PairRow}
    (h : pairwiseOuter sfun pfun cols all = .ok rows) :
    rows.map (fun r => (r.variable1, r.variable2)) =
      cols.flatMap (fun c1 =>
        (all.filter (fun c => strLt c1.1 c.1)).map (fun c => (c1.1, c.1))) := by
  induction cols generalizing rows with
  | nil =>
    unfold pairwiseOuter at h
    simp only [Except.ok.injEq] at h
    subst h
    simp
  | cons c rest ih =>
    obtain ⟨c1, xs⟩ := c
    unfold pairwiseOuter at h
    cases hin : pairwiseInner sfun pfun c1 xs all with
    | error e => rw [hin, ebind_error] at h; cases h
    | ok rows₁ =>
      rw [hin, ebind_ok] at h
      cases hout : pairwiseOuter sfun pfun rest all with
      | error e => rw [hout, emap_error] at h; cases h
      | ok more =>
        rw [hout, emap_ok] at h
        simp only [Except.ok.injEq] at h
        subst h
        simp only [List.map_append, List.flatMap_cons]
        rw [pairwiseInner_ok_shape hin, ih hout]

theorem pairwiseOuter_ok_exists (sfun pfun : List (List ℕ) → ℚ)
    {cols all : List (String × List Cell)} {n : ℕ} (hn : 0 < n)
    (hall : ∀ c ∈ all, c.2.length = n) (hcols : ∀ c ∈ cols, c.2.length = n) :
    ∃ rows, pairwiseOuter sfun pfun cols all = .ok rows := by
  induction cols with
  | nil => exact ⟨[], rfl⟩
  | cons c rest ih =>
    obtain ⟨c1, xs⟩ := c
    have hxs : xs.length = n := hcols _ (List.mem_cons_self _ _)
    have hrest : ∀ c ∈ rest, c.2.length = n :=
      fun c hc => hcols c (List.mem_cons_of_mem _ hc)
    rcases pairwiseInner_ok_exists sfun pfun c1 hn hxs hall with ⟨rows₁, h1⟩
    rcases ih hrest with ⟨more, h2⟩
    unfold pairwiseOuter
    rw [h1, ebind_ok, h2, emap_ok]
    exact ⟨_, rfl⟩

/-- C5 counterexample: a dataset with two (distinct) columns but zero rows
makes `chi2_contingency` raise on the first empty crosstab ("No data"), so
the pairwise step aborts and emits no table at all — not the claimed
`2 × 1 / 2 = 1` row. -/
theorem pairwise_crashes_on_empty_dataset_cex :
    pairwiseChiSquare exStat exChiP dfNoRows = .error .noData := by
  decide

/-- C5 amended: for every dataset with at least one row and C distinct
column names, the pairwise chi-square step emits exactly C×(C−1)/2 rows
(stated multiplicatively: twice the row count equals C×(C−1)), one row per
unordered pair of distinct columns with `variable1` strictly before
`variable2` in the lexical order on names, and no duplicate or self-pair
rows. -/
theorem pairwise_emits_all_pairs (sfun pfun : List (List ℕ) → ℚ)
    (df : DataFrame) (n : ℕ) (hn : 0 < n) (hnd : df.names.Nodup)
    (hlen : ∀ c ∈ df.cols, c.2.length = n) :
    ∃ rows, pairwiseChiSquare sfun pfun df = .ok rows ∧
      2 * rows.length = df.cols.length * (df.cols.length - 1) ∧
      (∀ r ∈ rows, strLt r.variable1 r.variable2) ∧
      (rows.map fun r => (r.variable1, r.variable2)).Nodup := by
  rcases pairwiseOuter_ok_exists sfun pfun hn hlen hlen with ⟨rows, hok⟩
  have hshape := pairwiseOuter_ok_shape hok
  have hpairsfst : df.cols.Pairwise (fun a b => a.1 ≠ b.1) := by
    have : (df.cols.map (·.1)).Pairwise (fun a b => a ≠ b) := hnd
    exact (List.pairwise_map).mp this
  refine ⟨rows, hok, ?_, ?_, ?_⟩
  · have hlen1 : rows.length = (rows.map fun r => (r.variable1, r.variable2)).length :=
      (List.length_map _ _).symm
    rw [hlen1, hshape, List.length_flatMap]
    simp only [Function.comp_def]
    have hinner : ∀ c1 : String × List Cell,
        ((df.cols.filter (fun c => strLt c1.1 c.1)).map (fun c => (c1.1, c.1))).length =
        (df.names.filter (fun b => strLt c1.1 b)).length := by
      intro c1
      rw [List.length_map]
      unfold DataFrame.names
      rw [List.filter_map]
      rw [List.length_map]
      rfl
    have hmapeq : (df.cols.map fun c1 =>
        ((df.cols.filter (fun c => strLt c1.1 c.1)).map (fun c => (c1.1, c.1))).length) =
        df.names.map fun a => (df.names.filter (fun b => strLt a b)).length := by
      unfold DataFrame.names
      rw [List.map_map]
      apply List.map_congr_left
      intro c1 _
      exact hinner c1
    rw [hmapeq]
    have := count_lt_pairs hnd
    have hnames : df.names.length = df.cols.length := List.length_map _ _
    rw [hnames] at this
    exact this
  · intro r hr
    have : (r.variable1, r.variable2) ∈ rows.map fun r => (r.variable1, r.variable2) :=
      List.mem_map_of_mem _ hr
    rw [hshape] at this
    rcases List.mem_flatMap.mp this with ⟨c1, -, hin⟩
    rcases List.mem_map.mp hin with ⟨c, hcf, heq⟩
    have hc := List.of_mem_filter hcf
    simp only [Prod.mk.injEq] at heq
    rw [← heq.1, ← heq.2]
    simpa using hc
  · rw [hshape]
    apply List.nodup_flatMap.mpr
    constructor
    · intro c1 _
      have hsub : ((df.cols.filter (fun c => strLt c1.1 c.1)).map (·.1)).Nodup := by
        apply List.Nodup.sublist _ hnd
        exact List.Sublist.map _ (List.filter_sublist _)
      have : ((df.cols.filter (fun c => strLt c1.1 c.1)).map (fun c => (c1.1, c.1))) =
          ((df.cols.filter (fun c => strLt c1.1 c.1)).map (·.1)).map
            (fun b => (c1.1, b)) := by
        rw [List.map_map]
        rfl
      rw [this]
      exact hsub.map (fun a b hab => by simpa using hab)
    · apply List.Pairwise.imp_of_mem ?_ hpairsfst
      intro c1 c1' _ _ hne
      intro p hp1 hp2
      rcases List.mem_map.mp hp1 with ⟨c, -, heq1⟩
      rcases List.mem_map.mp hp2 with ⟨c', -, heq2⟩
      apply hne
      rw [← heq1] at heq2
      simpa using (congrArg Prod.fst heq2).symm

/-- C5 amended witness: `dfMixed` (three distinct columns, three rows)
yields three pairwise rows. -/
theorem pairwise_emits_all_pairs_witness :
    ∃ rows, pairwiseChiSquare exStat exChiP dfMixed = .ok rows ∧
      2 * rows.length = dfMixed.cols.length * (dfMixed.cols.length - 1) ∧
      (∀ r ∈ rows, strLt r.variable1 r.variable2) ∧
      (rows.map fun r => (r.variable1, r.variable2)).Nodup :=
  pairwise_emits_all_pairs exStat exChiP dfMixed 3 (by decide) (by decide)
    (by decide)

theorem alookup_keyed_map {α β : Type} (l : List (String × α))
    (f : String × α → β) (q : String) :
    alookup (l.map fun p => (p.1, f p)) q = (afind l q).map f := by
  induction l with
  | nil => rfl
  | cons p t ih =>
    obtain ⟨k, v⟩ := p
    by_cases hq : k = q
    · subst hq
      simp [alookup, afind]
    · simp [alookup, afind, hq, ih]

theorem afind_eq_of_nodup {α : Type} {l : List (String × α)} {k : String}
    {v : α} (hnd : (l.map (·.1)).Nodup) (hmem : (k, v) ∈ l) :
    afind l k = some (k, v) := by
  induction l with
  | nil => cases hmem
  | cons p t ih =>
    rcases List.nodup_cons.mp hnd with ⟨hp, hnd'⟩
    rcases List.mem_cons.mp hmem with rfl | hmem'
    · simp [afind]
    · have hk : k ∈ List.map (fun x => x.1) t := by
        simpa using List.mem_map_of_mem (fun x => x.1) hmem'
      have hne : p.1 ≠ k := fun he => hp (by simpa [he] using hk)
      unfold afind
      rw [if_neg hne]
      exact ih hnd' hmem'

theorem mget_missingCorr (df : DataFrame) (r c : String) :
    mget (missingCorr df) r c =
      (afind df.cols r).bind fun p => (afind df.cols c).map fun q =>
        corrPair (indicatorQ p.2) (indicatorQ q.2) := by
  unfold mget missingCorr
  rw [alookup_keyed_map df.cols
    (fun p => df.cols.map fun c2 => (c2.1, corrPair (indicatorQ p.2) (indicatorQ c2.2))) r]
  cases afind df.cols r with
  | none => rfl
  | some p =>
    exact alookup_keyed_map df.cols
      (fun q => corrPair (indicatorQ p.2) (indicatorQ q.2)) c

theorem zip_self {α : Type} (l : List α) : l.zip l = l.map fun a => (a, a) := by
  induction l with
  | nil => rfl
  | cons a t ih => simp [List.zip_cons_cons, ih]

theorem corrZ_swap (l : List (ℚ × ℚ)) : corrZ (l.map Prod.swap) = corrZ l := by
  have hfst : (l.map Prod.swap).map (·.1) = l.map (·.2) := by
    rw [List.map_map]
    rfl
  have hsnd : (l.map Prod.swap).map (·.2) = l.map (·.1) := by
    rw [List.map_map]
    rfl
  have hsxx : sxxL (l.map Prod.swap) = syyL l := by
    unfold sxxL syyL
    rw [hfst, List.map_map]
    rfl
  have hsyy : syyL (l.map Prod.swap) = sxxL l := by
    unfold sxxL syyL
    rw [hsnd, List.map_map]
    rfl
  have hsxy : sxyL (l.map Prod.swap) = sxyL l := by
    unfold sxyL
    rw [hfst, hsnd, List.map_map]
    apply congrArg
    apply List.map_congr_left
    intro p _
    simp [Prod.swap]
    ring
  unfold corrZ
  rw [List.length_map, hsxx, hsyy, hsxy]
  by_cases h0 : l.length = 0
  · rw [if_pos h0, if_pos h0]
  · rw [if_neg h0, if_neg h0]
    by_cases hz : sxxL l = 0 ∨ syyL l = 0
    · rw [if_pos (Or.symm hz), if_pos hz]
    · rw [if_neg (fun hor => hz (Or.symm hor)), if_neg hz]
      rw [mul_comm]

theorem corrPair_comm (xs ys : List ℚ) : corrPair ys xs = corrPair xs ys := by
  unfold corrPair
  rw [← List.zip_swap xs ys]
  exact corrZ_swap _

theorem sum_of_const {xs : List ℚ} {c : ℚ} (h : ∀ x ∈ xs, x = c) :
    xs.sum = xs.length * c := by
  induction xs with
  | nil => simp
  | cons a t ih =>
    have ha : a = c := h a (List.mem_cons_self _ _)
    have ht := ih (fun x hx => h x (List.mem_cons_of_mem _ hx))
    simp only [List.sum_cons, List.length_cons, ha, ht]
    push_cast
    ring

theorem corrPair_self (xs : List ℚ) :
    corrPair xs xs =
      if xs.length = 0 ∨ (xs.map fun x => (x - meanL xs) ^ 2).sum = 0 then none
      else some ((xs.map fun x => (x - meanL xs) ^ 2).sum,
        (xs.map fun x => (x - meanL xs) ^ 2).sum *
          (xs.map fun x => (x - meanL xs) ^ 2).sum) := by
  unfold corrPair
  rw [zip_self]
  have hfst : (xs.map fun a => (a, a)).map (·.1) = xs := by
    induction xs with
    | nil => rfl
    | cons a t ih => simp only [List.map_cons] at ih ⊢; rw [ih]
  have hsnd : (xs.map fun a => (a, a)).map (·.2) = xs := by
    clear hfst
    induction xs with
    | nil => rfl
    | cons a t ih => simp only [List.map_cons] at ih ⊢; rw [ih]
  have hsxx : sxxL (xs.map fun a => (a, a)) =
      (xs.map fun x => (x - meanL xs) ^ 2).sum := by
    unfold sxxL
    rw [hfst, List.map_map]
    rfl
  have hsyy : syyL (xs.map fun a => (a, a)) =
      (xs.map fun x => (x - meanL xs) ^ 2).sum := by
    unfold syyL
    rw [hsnd, List.map_map]
    rfl
  have hsxy : sxyL (xs.map fun a => (a, a)) =
      (xs.map fun x => (x - meanL xs) ^ 2).sum := by
    unfold sxyL
    rw [hfst, hsnd, List.map_map]
    apply congrArg
    apply List.map_congr_left
    intro a _
    simp
    ring
  unfold corrZ
  rw [List.length_map, hsxx, hsyy, hsxy]
  by_cases h0 : xs.length = 0
  · rw [if_pos h0, if_pos (Or.inl h0)]
  · by_cases hS : (xs.map fun x => (x - meanL xs) ^ 2).sum = 0
    · rw [if_neg h0, if_pos (Or.inl hS), if_pos (Or.inr hS)]
    · rw [if_neg h0, if_neg (by simp [hS]), if_neg (by simp [h0, hS])]

theorem corrPair_self_nonconst {xs : List ℚ} {a b : ℚ}
    (ha : a ∈ xs) (hb : b ∈ xs) (hne : a ≠ b) :
    ∃ s : ℚ, 0 < s ∧ corrPair xs xs = some (s, s * s) := by
  have hx : a ≠ meanL xs ∨ b ≠ meanL xs := by
    by_contra hc
    push_neg at hc
    exact hne (hc.1.trans hc.2.symm)
  obtain ⟨x₀, hx₀mem, hx₀ne⟩ : ∃ x₀, x₀ ∈ xs ∧ x₀ ≠ meanL xs := by
    rcases hx with h | h
    · exact ⟨a, ha, h⟩
    · exact ⟨b, hb, h⟩
  have hpos : 0 < (xs.map fun x => (x - meanL xs) ^ 2).sum := by
    have h1 : 0 < (x₀ - meanL xs) ^ 2 :=
      pow_two_pos_of_ne_zero (sub_ne_zero.mpr hx₀ne)
    have hmem : (x₀ - meanL xs) ^ 2 ∈ xs.map fun x => (x - meanL xs) ^ 2 :=
      List.mem_map_of_mem _ hx₀mem
    have hnonneg : ∀ y ∈ xs.map fun x => (x - meanL xs) ^ 2, (0 : ℚ) ≤ y := by
      intro y hy
      rcases List.mem_map.mp hy with ⟨x, -, rfl⟩
      exact sq_nonneg _
    exact lt_of_lt_of_le h1 (List.single_le_sum hnonneg _ hmem)
  have hlen : xs.length ≠ 0 := by
    intro h
    rw [List.length_eq_zero] at h
    subst h
    cases ha
  refine ⟨_, hpos, ?_⟩
  rw [corrPair_self]
  rw [if_neg (by push_neg; exact ⟨hlen, hpos.ne'⟩)]

theorem corrPair_self_const {xs : List ℚ}
    (h : ∀ x ∈ xs, ∀ y ∈ xs, x = y) : corrPair xs xs = none := by
  rw [corrPair_self]
  cases xs with
  | nil => simp
  | cons x₀ t =>
    have hconst : ∀ x ∈ x₀ :: t, x = x₀ :=
      fun x hx => h x hx x₀ (List.mem_cons_self _ _)
    have hmean : meanL (x₀ :: t) = x₀ := by
      unfold meanL
      rw [sum_of_const hconst]
      rw [mul_comm, mul_div_assoc, div_self (by
        simp only [List.length_cons]
        push_cast
        positivity), mul_one]
    have hzero : ((x₀ :: t).map fun x => (x - meanL (x₀ :: t)) ^ 2).sum = 0 := by
      apply List.sum_eq_zero
      intro y hy
      rcases List.mem_map.mp hy with ⟨x, hx, rfl⟩
      rw [hmean, hconst x hx]
      ring
    rw [if_pos (Or.inr hzero)]

theorem corrVal_self_one {s : ℚ} (hs : 0 < s) :
    corrVal (some (s, s * s)) = some 1 := by
  unfold corrVal
  have hcast : ((s * s : ℚ) : ℝ) = (s : ℝ) * (s : ℝ) := by push_cast; ring
  have hval : ((s : ℚ) : ℝ) / Real.sqrt ((s * s : ℚ) : ℝ) = 1 := by
    rw [hcast, Real.sqrt_mul_self (by positivity)]
    exact div_self (by positivity)
  simpa using hval

/-- C6: the missingness correlation matrix is symmetric; every column whose
missingness indicator is non-constant (it has both a missing and a present
cell) has self-correlation exactly 1; and every column with zero missingness
or 100% missingness (constant indicator, zero variance) gets an explicit
NaN (`none`) self-correlation entry, never a spurious value. -/
theorem missing_corr_matrix_props (df : DataFrame) (hnd : df.names.Nodup) :
    (∀ c1 c2, mget (missingCorr df) c1 c2 = mget (missingCorr df) c2 c1) ∧
    (∀ c xs, (c, xs) ∈ df.cols → (∃ a ∈ xs, a = none) → (∃ b ∈ xs, b ≠ none) →
      ∃ e, mget (missingCorr df) c c = some (some e) ∧
        corrVal (some e) = some 1) ∧
    (∀ c xs, (c, xs) ∈ df.cols →
      ((∀ a ∈ xs, a = none) ∨ (∀ a ∈ xs, a ≠ none)) →
      mget (missingCorr df) c c = some none) := by
  have hndf : (df.cols.map (·.1)).Nodup := hnd
  refine ⟨?_, ?_, ?_⟩
  · intro c1 c2
    rw [mget_missingCorr, mget_missingCorr]
    cases afind df.cols c1 with
    | none =>
      cases afind df.cols c2 with
      | none => rfl
      | some q => simp
    | some p =>
      cases afind df.cols c2 with
      | none => simp
      | some q => simp [corrPair_comm]
  · intro c xs hmem hnone hsome
    have hfind := afind_eq_of_nodup hndf hmem
    rcases hnone with ⟨a, hamem, rfl⟩
    rcases hsome with ⟨b, hbmem, hbne⟩
    have h1 : (1 : ℚ) ∈ indicatorQ xs := by
      unfold indicatorQ
      exact List.mem_map.mpr ⟨none, hamem, by simp⟩
    have h0 : (0 : ℚ) ∈ indicatorQ xs := by
      unfold indicatorQ
      refine List.mem_map.mpr ⟨b, hbmem, ?_⟩
      rw [if_neg (by simp [Option.isNone_iff_eq_none, hbne])]
    rcases corrPair_self_nonconst h1 h0 one_ne_zero with ⟨s, hs, hcp⟩
    refine ⟨(s, s * s), ?_, corrVal_self_one hs⟩
    rw [mget_missingCorr, hfind]
    simp [hcp]
  · intro c xs hmem hconst
    have hfind := afind_eq_of_nodup hndf hmem
    have hcc : ∀ x ∈ indicatorQ xs, ∀ y ∈ indicatorQ xs, x = y := by
      intro x hx y hy
      rcases List.mem_map.mp hx with ⟨u, hu, rfl⟩
      rcases List.mem_map.mp hy with ⟨v, hv, rfl⟩
      rcases hconst with h | h
      · rw [h u hu, h v hv]
      · have hu' : ¬ u.isNone := by simp [Option.isNone_iff_eq_none, h u hu]
        have hv' : ¬ v.isNone := by simp [Option.isNone_iff_eq_none, h v hv]
        rw [if_neg hu', if_neg hv']
    rw [mget_missingCorr, hfind]
    simp [corrPair_self_const hcc]

/-- C6 witness: on `dfMixed`, column `a` has mixed missingness and its
diagonal entry denotes exactly 1. -/
theorem missing_corr_matrix_props_witness :
    ∃ e, mget (missingCorr dfMixed) "a" "a" = some (some e) ∧
      corrVal (some e) = some 1 :=
  (missing_corr_matrix_props dfMixed (by decide)).2.1 "a"
    [none, some 1, some 2] (by decide) ⟨none, by decide, rfl⟩
    ⟨some 1, by decide, by decide⟩

theorem survCol_ok_some_of_missing {mfun : List ℚ → List ℚ → ℚ}
    {sfun pfun : List (List ℕ) → ℚ} {df : DataFrame} {c : String × List Cell}
    {o : Option SurvRow} (hmiss : (isnullB c.2).any id = true)
    (h : survCol mfun sfun pfun df c = .ok o) :
    ∃ r, o = some r ∧ r.var = c.1 := by
  unfold survCol at h
  rw [if_pos hmiss] at h
  cases het : getCol df "efs_time" with
  | error e => rw [het, ebind_error] at h; cases h
  | ok et =>
    rw [het, ebind_ok] at h
    cases hmw : mannwhitneyu mfun (dropnaAt (isnullB c.2) et true)
        (dropnaAt (isnullB c.2) et false) with
    | error e => rw [hmw, ebind_error] at h; cases h
    | ok p1 =>
      rw [hmw, ebind_ok] at h
      cases hefs : getCol df "efs" with
      | error e => rw [hefs, ebind_error] at h; cases h
      | ok efs =>
        rw [hefs, ebind_ok] at h
        cases hchi : chi2_contingency sfun pfun
            (crosstab (maskCell (isnullB c.2)) efs) with
        | error e => rw [hchi, emap_error] at h; cases h
        | ok sp =>
          rw [hchi, emap_ok] at h
          simp only [Except.ok.injEq] at h
          subst h
          exact ⟨_, rfl, rfl⟩

theorem survRows_ok_vars {mfun : List ℚ → List ℚ → ℚ}
    {sfun pfun : List (List ℕ) → ℚ} {df : DataFrame}
    {cols : List (String × List Cell)} {rows : List SurvRow}
    (h : survRows mfun sfun pfun df cols = .ok rows) :
    rows.map (·.var) =
      (cols.filter (fun c => (isnullB c.2).any id)).map (·.1) := by
  induction cols generalizing rows with
  | nil =>
    unfold survRows at h
    simp only [Except.ok.injEq] at h
    subst h
    simp
  | cons c cs ih =>
    unfold survRows at h
    cases hc : survCol mfun sfun pfun df c with
    | error e => rw [hc, ebind_error] at h; cases h
    | ok o =>
      rw [hc, ebind_ok] at h
      cases hrest : survRows mfun sfun pfun df cs with
      | error e => rw [hrest, emap_error] at h; cases h
      | ok rest =>
        rw [hrest, emap_ok] at h
        simp only [Except.ok.injEq] at h
        subst h
        cases hany : (isnullB c.2).any id with
        | false =>
          rw [survCol_no_missing hany] at hc
          simp only [Except.ok.injEq] at hc
          subst hc
          simp only [Option.elim, List.filter_cons]
          rw [if_neg (by simp [hany])]
          exact ih hrest
        | true =>
          rcases survCol_ok_some_of_missing hany hc with ⟨r, rfl, hvar⟩
          simp only [Option.elim, List.map_cons, List.filter_cons]
          rw [if_pos (by simp [hany])]
          simp only [List.map_cons]
          rw [hvar, ih hrest]

/-- C10: `analyze_missing_patterns` analyzes every column with no
exclusions: the correlation matrix is indexed (rows and columns) by all
column names; the pairwise chi-square table covers every lexically ordered
pair of column names — the outcome columns `efs`/`efs_time` included; and
the outcome-linkage loop ranges over all columns, emitting one row per
column with at least one missing value in column order, so an outcome
column with a missing value is itself tested against the outcome
variables. -/
theorem analyzes_all_columns (sfun pfun : List (List ℕ) → ℚ)
    (mfun : List ℚ → List ℚ → ℚ) (df : DataFrame) :
    ((missingCorr df).map (·.1) = df.names ∧
      ∀ rrow ∈ missingCorr df, (rrow.2.map (·.1) = df.names)) ∧
    (∀ rows, pairwiseChiSquare sfun pfun df = .ok rows →
      ∀ c1 c2, c1 ∈ df.names → c2 ∈ df.names → strLt c1 c2 →
        (c1, c2) ∈ rows.map (fun r => (r.variable1, r.variable2))) ∧
    (∀ rows, survivalAnalysis mfun sfun pfun df = .ok rows →
      rows.map (·.var) =
        (df.cols.filter (fun c => (isnullB c.2).any id)).map (·.1)) := by
  refine ⟨⟨?_, ?_⟩, ?_, ?_⟩
  · unfold missingCorr DataFrame.names
    rw [List.map_map]
    rfl
  · intro rrow hrrow
    unfold missingCorr at hrrow
    rcases List.mem_map.mp hrrow with ⟨c1, -, rfl⟩
    unfold DataFrame.names
    rw [List.map_map]
    rfl
  · intro rows hok c1 c2 h1 h2 hlt
    rw [pairwiseOuter_ok_shape hok]
    rcases List.mem_map.mp h1 with ⟨p, hp, rfl⟩
    rcases List.mem_map.mp h2 with ⟨q, hq, rfl⟩
    apply List.mem_flatMap.mpr
    refine ⟨p, hp, ?_⟩
    apply List.mem_map.mpr
    exact ⟨q, List.mem_filter.mpr ⟨hq, by simpa using hlt⟩, rfl⟩
  · intro rows hok
    exact survRows_ok_vars hok

/-- C10 witness: on `dfEfsMiss` the outcome column `efs` itself (the only
column with a missing value) gets the one survival row. -/
theorem analyzes_all_columns_witness :
    outSV.map (·.var) =
      (dfEfsMiss.cols.filter (fun c => (isnullB c.2).any id)).map (·.1) :=
  (analyzes_all_columns exStat exChiP exMwu dfEfsMiss).2.2 outSV (by decide)
